import Mathlib

/-!
Verification of the TSP solver core (Traveling-Salesman repository).

The C sources in `src/src/heldkarp.c` and `src/src/nearestneighbor.c` are
embedded shallowly below.  Machine `int` values are modelled as unbounded `ℤ`
with the sentinel `INT_MAX = 2147483647` kept explicit; theorems that depend on
absence of overflow carry bound hypotheses making the modelling exact.  The
compile-time constant `SIZE` (tsp.h line 28) is the instance size; it appears
here as the explicit parameter `n`, so that `n := SIZE` recovers the source
verbatim.  Uninitialized C variables (`end` in held_karp's closing loop, the
`prev` table entries) are given the arbitrary value `0`; the theorems that
touch them prove the reads happen only after a write.
-/

namespace TSP

/-- Sentinel infinite cost: `INT_MAX` from limits.h with 32-bit `int`,
used by heldkarp.c lines 42, 63, 86. -/
def INTMAX : ℤ := 2147483647

/-- One step of a running strict-minimum scan: if index `i` offers a candidate
cost `c` and `c < best` then the pair (best, bestIndex) becomes `(c, i)`.
This is the common shape of the loops at heldkarp.c lines 112-116 and 123-128
and nearestneighbor.c lines 27-34. -/
def argminStep (g : ℕ → Option ℤ) (acc : ℤ × ℕ) (i : ℕ) : ℤ × ℕ :=
  match g i with
  | some c => if c < acc.1 then (c, i) else acc
  | none => acc

/-- Running strict-minimum scan over a list of indices. -/
def argminList (g : ℕ → Option ℤ) (acc : ℤ × ℕ) (l : List ℕ) : ℤ × ℕ :=
  l.foldl (argminStep g) acc

/-- Running strict-minimum scan over indices `0, 1, ..., n-1`, in this order. -/
def argminFold (g : ℕ → Option ℤ) (acc : ℤ × ℕ) (n : ℕ) : ℤ × ℕ :=
  argminList g acc (List.range n)

/-- The `TSP_Path` structure of tsp.h lines 58-61: a tour cost and the visit
order of the nodes.  Only the first `SIZE` entries of the C array are ever
written or read, so the path is a list of `n` node identifiers. -/
structure TSP_Path where
  cost : ℤ
  path : List ℕ
deriving Repr, DecidableEq

/-- Modelled from the spec: `make_tsp_path` is declared in tsp.h line 79 but
its definition is not under src/; per the spec (section 3, Tour) it just
packages the path array and the total cost into a freshly allocated Tour. -/
def make_tsp_path (path : List ℕ) (cost : ℤ) : TSP_Path :=
  { cost := cost, path := path }

/-! ## Held-Karp solver, heldkarp.c -/

/-- Initial value of a dp cell: heldkarp.c lines 61-67.  Every cell starts at
`INT_MAX` and then `dp[1 << start][start]` is set to `0`. -/
def hkBase (start S l : ℕ) : ℤ :=
  if S = 2 ^ start ∧ l = start then 0 else INTMAX

/-- The dp/prev cell `(dp[S][l], prev[S][l])` as left by the subset loop of
heldkarp.c lines 73-120, computed with explicit fuel so the recursion is
structural: reading `dp[S ^ (1 << last)][i]` only touches numerically smaller
subsets, which the increasing subset order of the C loop has already
finalized.  `prev` entries are uninitialized in C until the first strict
improvement; the model gives them initial value `0`. -/
def hkCellF (n : ℕ) (dist : ℕ → ℕ → ℤ) (start : ℕ) : ℕ → ℕ → ℕ → ℤ × ℕ
  | 0, S, l => (hkBase start S l, 0)
  | fuel + 1, S, l =>
    if Nat.testBit S l then
      argminFold (fun i =>
        if i ≠ l ∧ Nat.testBit S i ∧ (hkCellF n dist start fuel (S ^^^ 2 ^ l) i).1 ≠ INTMAX
        then some ((hkCellF n dist start fuel (S ^^^ 2 ^ l) i).1 + dist i l)
        else none) (hkBase start S l, 0) n
    else (hkBase start S l, 0)

/-- The dp/prev cell with the canonical fuel `S`. -/
def hkCell (n : ℕ) (dist : ℕ → ℕ → ℤ) (start S l : ℕ) : ℤ × ℕ :=
  hkCellF n dist start S S l

/-- Final value of `dp[S][l]` after the loop of heldkarp.c lines 73-120. -/
def hkDP (n : ℕ) (dist : ℕ → ℕ → ℤ) (start S l : ℕ) : ℤ :=
  (hkCell n dist start S l).1

/-- Final value of `prev[S][l]` after the loop of heldkarp.c lines 73-120. -/
def hkPrev (n : ℕ) (dist : ℕ → ℕ → ℤ) (start S l : ℕ) : ℕ :=
  (hkCell n dist start S l).2

/-- The tour-closing loop of heldkarp.c lines 122-129: scan every `last`,
form `dp[(1 << n) - 1][last] + dist[last][start]`, and keep the strict
minimum together with the node achieving it (`result`, `end`).  `result`
starts at `INT_MAX`; `end` is uninitialized in C and modelled as `0`. -/
def hkClose (n : ℕ) (dist : ℕ → ℕ → ℤ) (start : ℕ) : ℤ × ℕ :=
  argminFold (fun last => some (hkDP n dist start (2 ^ n - 1) last + dist last start))
    (INTMAX, 0) n

/-- The backtracking loop of heldkarp.c lines 132-138: `k` counts the
remaining iterations (`i = n-1` down to `1`), `cur` is the current subset,
`e` the node written into the path at the current position. -/
def hkGo (n : ℕ) (dist : ℕ → ℕ → ℤ) (start : ℕ) : ℕ → ℕ → ℕ → List ℕ → List ℕ
  | 0, _, _, acc => acc
  | k + 1, cur, e, acc =>
    hkGo n dist start k (cur ^^^ 2 ^ e) (hkPrev n dist start cur e) (e :: acc)

/-- The `held_karp` solver of heldkarp.c lines 22-161 (allocation assumed to
succeed; the function performs no other I/O). -/
def held_karp (n : ℕ) (dist : ℕ → ℕ → ℤ) (start : ℕ) : TSP_Path :=
  make_tsp_path
    (start :: hkGo n dist start (n - 1) (2 ^ n - 1) (hkClose n dist start).2 [])
    (hkClose n dist start).1

/-! ## Nearest-neighbor solver, nearestneighbor.c -/

/-- The candidate scan of nearestneighbor.c lines 22-36: running minimum
`cost` starts at the literal `999` and the result `next` starts at `cur`
itself; every `i` with `i != cur && !visited[i]` whose cost beats the running
minimum strictly replaces it. -/
def find_nearest_neighbor (n : ℕ) (cur : ℕ) (table : ℕ → ℕ → ℤ)
    (visited : ℕ → Bool) : ℕ :=
  (argminFold (fun i => if i ≠ cur ∧ visited i = false then some (table cur i) else none)
    (999, cur) n).2

/-- The main loop of nearestneighbor.c lines 56-63: `k` counts remaining
iterations (`i = 1` to `n-1`), `acc` holds the path built so far in reverse,
and after the loop the cost of the edge back to node `0` is added. -/
def nnGo (n : ℕ) (dist : ℕ → ℕ → ℤ) : ℕ → (ℕ → Bool) → ℕ → List ℕ → ℤ → List ℕ × ℤ
  | 0, _, cur, acc, cost => (acc.reverse, cost + dist cur 0)
  | k + 1, visited, cur, acc, cost =>
    let next := find_nearest_neighbor n cur dist visited
    nnGo n dist k (fun j => visited j || decide (j = next)) next (next :: acc)
      (cost + dist cur next)

/-- The `nearest_neighbor` solver of nearestneighbor.c lines 38-67.  Note it
receives only the matrix: the start node is the local `cur = 0`
(nearestneighbor.c line 48). -/
def nearest_neighbor (n : ℕ) (dist : ℕ → ℕ → ℤ) : TSP_Path :=
  make_tsp_path (nnGo n dist (n - 1) (fun j => decide (j = 0)) 0 [0] 0).1
    (nnGo n dist (n - 1) (fun j => decide (j = 0)) 0 [0] 0).2

/-! ## Cycle costs and Hamiltonian cycles (specification side) -/

/-- Sum of the edge costs along consecutive nodes of a path. -/
def pathCost (dist : ℕ → ℕ → ℤ) : List ℕ → ℤ
  | [] => 0
  | [_] => 0
  | a :: b :: t => dist a b + pathCost dist (b :: t)

/-- Cost of the closing edge from the last node of a path back to its head. -/
def closeEdge (dist : ℕ → ℕ → ℤ) : List ℕ → ℤ
  | [] => 0
  | a :: t => dist (t.getLastD a) a

/-- Total cost of the closed cycle implied by a path: the consecutive edges
plus the closing edge back to the head. -/
def cycleCost (dist : ℕ → ℕ → ℤ) (p : List ℕ) : ℤ :=
  pathCost dist p + closeEdge dist p

/-- All Hamiltonian cycles on nodes `0..n-1` cut open at `s`: permutations of
`range n` whose first element is `s`. -/
def hamCycles (n s : ℕ) : List (List ℕ) :=
  (List.range n).permutations.filter (fun p => p.head? = some s)

/-- A duplicate-free list whose members are exactly the set bits of `S`. -/
def CoversExactly (S : ℕ) (p : List ℕ) : Prop :=
  p.Nodup ∧ ∀ x, x ∈ p ↔ Nat.testBit S x

/-- A simple path that starts at `start`, ends at `l`, and visits exactly the
nodes in the bit set `S`, each once. -/
def IsPathOver (start S l : ℕ) (p : List ℕ) : Prop :=
  p.head? = some start ∧ p.getLast? = some l ∧ CoversExactly S p

/-! ## Concrete matrices used as witnesses and counterexamples -/

/-- Build a cost function from a row-major table (entries outside the table
read as 0, never reached for in-range indices). -/
def matOf (rows : List (List ℤ)) : ℕ → ℕ → ℤ :=
  fun i j => (rows.getD i []).getD j 0

/-- Spec section 8 scenario 2: two nodes at distance 5. -/
def mat2 : ℕ → ℕ → ℤ := matOf [[0, 5], [5, 0]]

/-- A valid matrix (zero diagonal, non-negative) whose off-diagonal entries
reach the nearest-neighbor sentinel 999. -/
def mat999 : ℕ → ℕ → ℤ := matOf [[0, 1000], [1000, 0]]

/-- A small three-node example. -/
def mat3 : ℕ → ℕ → ℤ := matOf [[0, 1, 4], [1, 0, 2], [4, 2, 0]]

/-- Spec section 8 scenario 3: the four-node example with optimum 80. -/
def mat4 : ℕ → ℕ → ℤ :=
  matOf [[0, 10, 15, 20], [10, 0, 35, 25], [15, 35, 0, 30], [20, 25, 30, 0]]

/-- Two's-complement value of the C expression `1 << k` on a 32-bit `int`,
as it appears in the allocation request at heldkarp.c line 45. -/
def int32shl (k : ℕ) : ℤ :=
  (2 ^ k + 2 ^ 31) % 2 ^ 32 - 2 ^ 31

/-! ## Generic facts about the strict-minimum scan -/

theorem argminStep_fst_le (g : ℕ → Option ℤ) (acc : ℤ × ℕ) (i : ℕ) :
    (argminStep g acc i).1 ≤ acc.1 := by
  unfold argminStep
  cases h : g i with
  | none => exact le_refl _
  | some c =>
    by_cases hc : c < acc.1
    · simp [hc]
      exact le_of_lt hc
    · simp [hc]

theorem argminList_fst_le (g : ℕ → Option ℤ) (l : List ℕ) :
    ∀ acc : ℤ × ℕ, (argminList g acc l).1 ≤ acc.1 := by
  induction l with
  | nil => intro acc; exact le_refl _
  | cons a t ih =>
    intro acc
    calc (argminList g (argminStep g acc a) t).1
        ≤ (argminStep g acc a).1 := ih _
      _ ≤ acc.1 := argminStep_fst_le g acc a

theorem argminList_le_cand (g : ℕ → Option ℤ) (l : List ℕ) :
    ∀ acc : ℤ × ℕ, ∀ i ∈ l, ∀ c : ℤ, g i = some c → (argminList g acc l).1 ≤ c := by
  induction l with
  | nil => intro acc i hi; exact absurd hi (List.not_mem_nil i)
  | cons a t ih =>
    intro acc i hi c hg
    rcases List.mem_cons.mp hi with rfl | hit
    · have hstep : (argminStep g acc i).1 ≤ c := by
        unfold argminStep
        rw [hg]
        by_cases hc : c < acc.1
        · simp [hc]
        · simp [hc]; exact le_of_not_lt hc
      calc (argminList g (argminStep g acc i) t).1
          ≤ (argminStep g acc i).1 := argminList_fst_le g t _
        _ ≤ c := hstep
    · exact ih _ i hit c hg

theorem argminList_cases (g : ℕ → Option ℤ) (l : List ℕ) :
    ∀ acc : ℤ × ℕ, argminList g acc l = acc ∨
      ((argminList g acc l).1 < acc.1 ∧
        ∃ i ∈ l, g i = some (argminList g acc l).1 ∧ (argminList g acc l).2 = i) := by
  induction l with
  | nil => intro acc; exact Or.inl rfl
  | cons a t ih =>
    intro acc
    rcases ih (argminStep g acc a) with heq | ⟨hlt, i, hi, hg, hsnd⟩
    · unfold argminList at heq ⊢
      simp only [List.foldl_cons]
      rw [heq]
      unfold argminStep
      cases hga : g a with
      | none => exact Or.inl rfl
      | some c =>
        by_cases hc : c < acc.1
        · refine Or.inr ⟨by simp [hc, hga], a, List.mem_cons_self a t, ?_, by simp [hc, hga]⟩
          simp [hc, hga]
        · simp [hc]
    · refine Or.inr ⟨lt_of_lt_of_le hlt (argminStep_fst_le g acc a), i, List.mem_cons_of_mem a hi, ?_, ?_⟩
      · exact hg
      · exact hsnd

theorem argminList_eq_of_fst_eq (g : ℕ → Option ℤ) (l : List ℕ) (acc : ℤ × ℕ)
    (h : (argminList g acc l).1 = acc.1) : argminList g acc l = acc := by
  rcases argminList_cases g l acc with heq | ⟨hlt, _⟩
  · exact heq
  · exact absurd h (ne_of_lt hlt)

theorem argminFold_succ (g : ℕ → Option ℤ) (acc : ℤ × ℕ) (n : ℕ) :
    argminFold g acc (n + 1) = argminStep g (argminFold g acc n) n := by
  unfold argminFold argminList
  rw [List.range_succ, List.foldl_append]
  rfl

theorem argminFold_fst_le (g : ℕ → Option ℤ) (acc : ℤ × ℕ) (n : ℕ) :
    (argminFold g acc n).1 ≤ acc.1 :=
  argminList_fst_le g _ acc

theorem argminFold_le_cand (g : ℕ → Option ℤ) (acc : ℤ × ℕ) (n : ℕ)
    (i : ℕ) (hi : i < n) (c : ℤ) (hg : g i = some c) :
    (argminFold g acc n).1 ≤ c :=
  argminList_le_cand g _ acc i (List.mem_range.mpr hi) c hg

theorem argminFold_cases (g : ℕ → Option ℤ) (acc : ℤ × ℕ) (n : ℕ) :
    argminFold g acc n = acc ∨
      ((argminFold g acc n).1 < acc.1 ∧
        ∃ i < n, g i = some (argminFold g acc n).1 ∧ (argminFold g acc n).2 = i) := by
  rcases argminList_cases g (List.range n) acc with heq | ⟨hlt, i, hi, hg, hsnd⟩
  · exact Or.inl heq
  · exact Or.inr ⟨hlt, i, List.mem_range.mp hi, hg, hsnd⟩

theorem argminStep_none (g : ℕ → Option ℤ) (acc : ℤ × ℕ) (i : ℕ)
    (h : g i = none) : argminStep g acc i = acc := by
  unfold argminStep; rw [h]

theorem argminStep_some_lt (g : ℕ → Option ℤ) (acc : ℤ × ℕ) (i : ℕ) (c : ℤ)
    (h : g i = some c) (hc : c < acc.1) : argminStep g acc i = (c, i) := by
  unfold argminStep; rw [h]; simp [hc]

theorem argminStep_some_ge (g : ℕ → Option ℤ) (acc : ℤ × ℕ) (i : ℕ) (c : ℤ)
    (h : g i = some c) (hc : ¬ c < acc.1) : argminStep g acc i = acc := by
  unfold argminStep; rw [h]; simp [hc]

/-- First minimum wins: if the scan moved off its initial value, every index
strictly before the recorded one offers a strictly larger candidate. -/
theorem argminFold_first_wins (g : ℕ → Option ℤ) (acc : ℤ × ℕ) (n : ℕ)
    (hne : argminFold g acc n ≠ acc) :
    ∀ j < (argminFold g acc n).2, ∀ c : ℤ, g j = some c → (argminFold g acc n).1 < c := by
  induction n with
  | zero => exact absurd rfl hne
  | succ n ih =>
    rw [argminFold_succ] at hne ⊢
    cases hg : g n with
    | none =>
      rw [argminStep_none g _ n hg] at hne ⊢
      exact ih hne
    | some c =>
      by_cases hc : c < (argminFold g acc n).1
      · rw [argminStep_some_lt g _ n c hg hc]
        intro j hj c' hg'
        calc c < (argminFold g acc n).1 := hc
          _ ≤ c' := argminFold_le_cand g acc n j hj c' hg'
      · rw [argminStep_some_ge g _ n c hg hc] at hne ⊢
        exact ih hne

theorem argminList_congr (g1 g2 : ℕ → Option ℤ) (l : List ℕ)
    (h : ∀ i ∈ l, g1 i = g2 i) : ∀ acc, argminList g1 acc l = argminList g2 acc l := by
  induction l with
  | nil => intro acc; rfl
  | cons a t ih =>
    intro acc
    unfold argminList
    simp only [List.foldl_cons]
    have hstep : argminStep g1 acc a = argminStep g2 acc a := by
      unfold argminStep
      rw [h a (List.mem_cons_self a t)]
    rw [hstep]
    exact ih (fun i hi => h i (List.mem_cons_of_mem a hi)) _

theorem argminFold_congr (g1 g2 : ℕ → Option ℤ) (n : ℕ)
    (h : ∀ i < n, g1 i = g2 i) (acc : ℤ × ℕ) :
    argminFold g1 acc n = argminFold g2 acc n :=
  argminList_congr g1 g2 (List.range n) (fun i hi => h i (List.mem_range.mp hi)) acc

theorem argminFold_of_none (g : ℕ → Option ℤ) (acc : ℤ × ℕ) (n : ℕ)
    (h : ∀ i < n, g i = none) : argminFold g acc n = acc := by
  rcases argminFold_cases g acc n with heq | ⟨_, i, hi, hg, _⟩
  · exact heq
  · rw [h i hi] at hg
    exact absurd hg (by simp)

/-! ## Bitmask facts -/

theorem testBit_xor_pow {S l : ℕ} (hl : Nat.testBit S l = true) (x : ℕ) :
    Nat.testBit (S ^^^ 2 ^ l) x = if x = l then false else Nat.testBit S x := by
  rw [Nat.testBit_xor]
  by_cases hx : x = l
  · subst hx
    simp [hl, Nat.testBit_two_pow_self]
  · rw [Nat.testBit_two_pow_of_ne (fun h => hx h.symm)]
    simp [hx]

theorem xor_pow_lt {S l : ℕ} (hl : Nat.testBit S l = true) : S ^^^ 2 ^ l < S := by
  apply Nat.lt_of_testBit l
  · rw [testBit_xor_pow hl]
    simp
  · exact hl
  · intro j hj
    rw [testBit_xor_pow hl]
    have : ¬ (j = l) := by omega
    simp [this]

theorem testBit_lt {n S x : ℕ} (hS : S < 2 ^ n) (hx : Nat.testBit S x = true) : x < n := by
  by_contra h
  have h2 : (2 : ℕ) ^ n ≤ 2 ^ x := Nat.pow_le_pow_right (by norm_num) (le_of_not_lt h)
  have h3 := Nat.testBit_implies_ge hx
  omega

/-! ## The dp recurrence as the loop leaves it -/

/-- The body of the inner loop of heldkarp.c lines 80-118, viewed as the
candidate offered at index `i` when computing `dp[S][l]`: defined when
`i != last`, `i` is in the subset, and the reduced-subset entry is not the
`INT_MAX` sentinel. -/
def hkCand (n : ℕ) (dist : ℕ → ℕ → ℤ) (start S l : ℕ) : ℕ → Option ℤ :=
  fun i =>
    if i ≠ l ∧ Nat.testBit S i ∧ hkDP n dist start (S ^^^ 2 ^ l) i ≠ INTMAX
    then some (hkDP n dist start (S ^^^ 2 ^ l) i + dist i l)
    else none

theorem hkCellF_fuel (n : ℕ) (dist : ℕ → ℕ → ℤ) (start : ℕ) :
    ∀ S f1 f2 l, S ≤ f1 → S ≤ f2 →
      hkCellF n dist start f1 S l = hkCellF n dist start f2 S l := by
  intro S
  induction S using Nat.strong_induction_on with
  | _ S ih =>
    intro f1 f2 l h1 h2
    match S, f1, f2 with
    | 0, 0, 0 => rfl
    | 0, 0, f2 + 1 => simp [hkCellF, Nat.zero_testBit]
    | 0, f1 + 1, 0 => simp [hkCellF, Nat.zero_testBit]
    | 0, f1 + 1, f2 + 1 => simp [hkCellF, Nat.zero_testBit]
    | S + 1, f1 + 1, f2 + 1 =>
      simp only [hkCellF]
      by_cases hb : Nat.testBit (S + 1) l
      · simp only [hb, if_true]
        apply argminFold_congr
        intro i hi
        have hlt : (S + 1) ^^^ 2 ^ l < S + 1 := xor_pow_lt hb
        have hrw : hkCellF n dist start f1 ((S + 1) ^^^ 2 ^ l) i =
            hkCellF n dist start f2 ((S + 1) ^^^ 2 ^ l) i :=
          ih _ hlt f1 f2 i (by omega) (by omega)
        rw [hrw]
      · simp [hb]

/-- Master equation: the final `dp`/`prev` cell satisfies the Held-Karp
recurrence over numerically smaller subsets, exactly as the increasing
subset order of heldkarp.c line 73 computes it. -/
theorem hkCell_eq (n : ℕ) (dist : ℕ → ℕ → ℤ) (start S l : ℕ) :
    hkCell n dist start S l =
      if Nat.testBit S l then
        argminFold (hkCand n dist start S l) (hkBase start S l, 0) n
      else (hkBase start S l, 0) := by
  match S with
  | 0 => simp [hkCell, hkCellF, Nat.zero_testBit]
  | S + 1 =>
    unfold hkCell
    simp only [hkCellF]
    by_cases hb : Nat.testBit (S + 1) l
    · simp only [hb, if_true]
      apply argminFold_congr
      intro i hi
      have hlt : (S + 1) ^^^ 2 ^ l < S + 1 := xor_pow_lt hb
      have hrw : hkCellF n dist start S ((S + 1) ^^^ 2 ^ l) i =
          hkCell n dist start ((S + 1) ^^^ 2 ^ l) i :=
        hkCellF_fuel n dist start _ S _ i (by omega) (le_refl _)
      unfold hkCand
      rw [hrw]
      rfl
    · simp [hb]

theorem hkDP_le_base (n : ℕ) (dist : ℕ → ℕ → ℤ) (start S l : ℕ) :
    hkDP n dist start S l ≤ hkBase start S l := by
  unfold hkDP
  rw [hkCell_eq]
  by_cases hb : Nat.testBit S l
  · simp only [hb, if_true]
    exact argminFold_fst_le _ _ n
  · simp [hb]

theorem hkDP_le_cand (n : ℕ) (dist : ℕ → ℕ → ℤ) (start S l i : ℕ)
    (hb : Nat.testBit S l = true) (hi : i < n) (hil : i ≠ l)
    (hiS : Nat.testBit S i = true)
    (hfin : hkDP n dist start (S ^^^ 2 ^ l) i ≠ INTMAX) :
    hkDP n dist start S l ≤ hkDP n dist start (S ^^^ 2 ^ l) i + dist i l := by
  unfold hkDP
  rw [hkCell_eq]
  simp only [hb, if_true]
  exact argminFold_le_cand _ _ n i hi _
    (by unfold hkCand; rw [if_pos ⟨hil, hiS, hfin⟩]; unfold hkDP; rfl)

/-- Every final dp value is either its initial value or one of the guarded
candidates of the inner loop. -/
theorem hkDP_cases (n : ℕ) (dist : ℕ → ℕ → ℤ) (start S l : ℕ) :
    hkDP n dist start S l = hkBase start S l ∨
      ∃ i, Nat.testBit S l = true ∧ i < n ∧ i ≠ l ∧ Nat.testBit S i = true ∧
        hkDP n dist start (S ^^^ 2 ^ l) i ≠ INTMAX ∧
        hkDP n dist start S l = hkDP n dist start (S ^^^ 2 ^ l) i + dist i l := by
  unfold hkDP
  rw [hkCell_eq]
  by_cases hb : Nat.testBit S l
  · simp only [hb, if_true]
    rcases argminFold_cases (hkCand n dist start S l) (hkBase start S l, 0) n with
      heq | ⟨_, i, hi, hg, _⟩
    · rw [heq]
      exact Or.inl rfl
    · unfold hkCand at hg
      by_cases hcond : i ≠ l ∧ Nat.testBit S i = true ∧
          hkDP n dist start (S ^^^ 2 ^ l) i ≠ INTMAX
      · refine Or.inr ⟨i, by simp [hb], hi, hcond.1, hcond.2.1, hcond.2.2, ?_⟩
        rw [if_pos (by exact ⟨hcond.1, hcond.2.1, hcond.2.2⟩)] at hg
        exact (Option.some_injective ℤ hg).symm
      · rw [if_neg (by tauto)] at hg
        exact absurd hg (by simp)
  · simp [hb]

/-! ## Path cost and covering lemmas -/

theorem pathCost_concat (dist : ℕ → ℕ → ℤ) :
    ∀ (q : List ℕ) (i x : ℕ), q.getLast? = some i →
      pathCost dist (q ++ [x]) = pathCost dist q + dist i x := by
  intro q
  induction q with
  | nil => intro i x h; simp at h
  | cons a t ih =>
    intro i x h
    cases t with
    | nil =>
      simp only [List.getLast?_singleton, Option.some.injEq] at h
      subst h
      simp [pathCost]
    | cons b t2 =>
      have h2 : (b :: t2).getLast? = some i := by
        rw [List.getLast?_cons_cons] at h
        exact h
      have hstep : pathCost dist ((a :: b :: t2) ++ [x]) =
          dist a b + pathCost dist ((b :: t2) ++ [x]) := rfl
      rw [hstep, ih i x h2, pathCost]
      ring

theorem pathCost_nonneg (dist : ℕ → ℕ → ℤ) (n : ℕ)
    (hnn : ∀ i j, i < n → j < n → 0 ≤ dist i j) :
    ∀ q : List ℕ, (∀ x ∈ q, x < n) → 0 ≤ pathCost dist q := by
  intro q
  induction q with
  | nil => intro _; simp [pathCost]
  | cons a t ih =>
    intro hmem
    cases t with
    | nil => simp [pathCost]
    | cons b t2 =>
      have h1 : 0 ≤ dist a b :=
        hnn a b (hmem a (by simp)) (hmem b (by simp))
      have h2 : 0 ≤ pathCost dist (b :: t2) :=
        ih (fun x hx => hmem x (List.mem_cons_of_mem a hx))
      have hstep : pathCost dist (a :: b :: t2) = dist a b + pathCost dist (b :: t2) := rfl
      rw [hstep]
      linarith

theorem pathCost_le (dist : ℕ → ℕ → ℤ) (n : ℕ) (B : ℤ)
    (hB : ∀ i j, i < n → j < n → dist i j ≤ B) :
    ∀ q : List ℕ, (∀ x ∈ q, x < n) →
      pathCost dist q ≤ ((q.length - 1 : ℕ) : ℤ) * B := by
  intro q
  induction q with
  | nil => intro _; simp [pathCost]
  | cons a t ih =>
    intro hmem
    cases t with
    | nil => simp [pathCost]
    | cons b t2 =>
      have h1 : dist a b ≤ B := hB a b (hmem a (by simp)) (hmem b (by simp))
      have h2 : pathCost dist (b :: t2) ≤ (((b :: t2).length - 1 : ℕ) : ℤ) * B :=
        ih (fun x hx => hmem x (List.mem_cons_of_mem a hx))
      have hstep : pathCost dist (a :: b :: t2) = dist a b + pathCost dist (b :: t2) := rfl
      have hlen1 : ((b :: t2).length - 1 : ℕ) = t2.length := by simp
      have hlen2 : ((a :: b :: t2).length - 1 : ℕ) = t2.length + 1 := by simp
      rw [hlen1] at h2
      rw [hstep, hlen2]
      push_cast
      linarith

theorem coversExactly_length_eq {S : ℕ} {p q : List ℕ}
    (hp : CoversExactly S p) (hq : CoversExactly S q) : p.length = q.length := by
  have h1 : p.toFinset = q.toFinset := by
    ext x
    simp only [List.mem_toFinset]
    rw [hp.2 x, hq.2 x]
  calc p.length = p.toFinset.card := (List.toFinset_card_of_nodup hp.1).symm
    _ = q.toFinset.card := by rw [h1]
    _ = q.length := List.toFinset_card_of_nodup hq.1

theorem coversExactly_length_le {n S : ℕ} {p : List ℕ} (hS : S < 2 ^ n)
    (hp : CoversExactly S p) : p.length ≤ n := by
  have hsub : p.toFinset ⊆ Finset.range n := by
    intro x hx
    rw [List.mem_toFinset] at hx
    exact Finset.mem_range.mpr (testBit_lt hS ((hp.2 x).mp hx))
  calc p.length = p.toFinset.card := (List.toFinset_card_of_nodup hp.1).symm
    _ ≤ (Finset.range n).card := Finset.card_le_card hsub
    _ = n := Finset.card_range n

theorem coversExactly_mem_lt {n S x : ℕ} {p : List ℕ} (hS : S < 2 ^ n)
    (hp : CoversExactly S p) (hx : x ∈ p) : x < n :=
  testBit_lt hS ((hp.2 x).mp hx)

/-- Extending a path over the reduced subset by the removed node. -/
theorem isPathOver_concat {start S e i : ℕ} {q : List ℕ}
    (hb : Nat.testBit S e = true)
    (hq : IsPathOver start (S ^^^ 2 ^ e) i q) :
    IsPathOver start S e (q ++ [e]) := by
  obtain ⟨hh, hl, hnd, hmem⟩ := hq
  have hqne : q ≠ [] := by
    intro hcontra
    rw [hcontra] at hh
    exact absurd hh (by simp)
  have henot : e ∉ q := by
    intro hcontra
    have := (hmem e).mp hcontra
    rw [testBit_xor_pow hb e] at this
    simp at this
  refine ⟨?_, ?_, ?_, ?_⟩
  · rw [List.head?_append_of_ne_nil q hqne]
    exact hh
  · exact List.getLast?_concat q
  · rw [List.nodup_append]
    exact ⟨hnd, List.nodup_singleton e, by
      intro x hx hx2
      rw [List.mem_singleton] at hx2
      subst hx2
      exact henot hx⟩
  · intro x
    rw [List.mem_append, List.mem_singleton]
    by_cases hx : x = e
    · subst hx
      simp [hb]
    · rw [hmem x, testBit_xor_pow hb x, if_neg hx]
      simp [hx]

/-- Splitting a path of length at least two at its final node. -/
theorem isPathOver_split {start S l : ℕ} {p : List ℕ}
    (hp : IsPathOver start S l p) (hlen : 2 ≤ p.length) :
    ∃ q i, p = q ++ [l] ∧ IsPathOver start (S ^^^ 2 ^ l) i q ∧
      q.getLast? = some i ∧ Nat.testBit S l = true ∧ i ≠ l := by
  obtain ⟨hh, hl, hnd, hmem⟩ := hp
  have hbl : Nat.testBit S l = true := (hmem l).mp (List.mem_of_mem_getLast? (by rw [hl]; rfl))
  have hpq : p.dropLast ++ [l] = p := List.dropLast_append_getLast? l (by rw [hl]; rfl)
  set q := p.dropLast with hqdef
  have hqlen : q.length = p.length - 1 := by
    rw [hqdef, List.length_dropLast]
  have hqne : q ≠ [] := by
    intro hcontra
    rw [hcontra] at hqlen
    simp at hqlen
    omega
  have hlnotq : l ∉ q := by
    have := hnd
    rw [← hpq, List.nodup_append] at this
    intro hcontra
    exact this.2.2 hcontra (List.mem_singleton.mpr rfl)
  have hqnodup : q.Nodup := List.Nodup.sublist (List.dropLast_sublist p) hnd
  obtain ⟨i, hi⟩ : ∃ i, q.getLast? = some i := by
    cases hq : q.getLast? with
    | none => exact absurd (List.getLast?_eq_none_iff.mp hq) hqne
    | some i => exact ⟨i, rfl⟩
  have hiq : i ∈ q := List.mem_of_mem_getLast? (by rw [hi]; rfl)
  have hil : i ≠ l := fun hcontra => hlnotq (hcontra ▸ hiq)
  have hqmem : ∀ x, x ∈ q ↔ Nat.testBit (S ^^^ 2 ^ l) x := by
    intro x
    rw [testBit_xor_pow hbl x]
    by_cases hx : x = l
    · subst hx
      simp [hlnotq]
    · rw [if_neg hx, ← hmem x, ← hpq, List.mem_append, List.mem_singleton]
      constructor
      · exact fun h => Or.inl h
      · rintro (h | h)
        · exact h
        · exact absurd h hx
  refine ⟨q, i, hpq.symm, ⟨?_, hi, hqnodup, hqmem⟩, hi, hbl, hil⟩
  rw [← hpq, List.head?_append_of_ne_nil q hqne] at hh
  exact hh

/-- When a dp cell moved strictly below its initial value, `prev` records the
first index achieving the minimum, and that index satisfies the loop guard. -/
theorem hkPrev_spec (n : ℕ) (dist : ℕ → ℕ → ℤ) (start S l : ℕ)
    (hne : hkDP n dist start S l ≠ hkBase start S l) :
    Nat.testBit S l = true ∧
    hkPrev n dist start S l < n ∧ hkPrev n dist start S l ≠ l ∧
      Nat.testBit S (hkPrev n dist start S l) = true ∧
      hkDP n dist start (S ^^^ 2 ^ l) (hkPrev n dist start S l) ≠ INTMAX ∧
      hkDP n dist start S l =
        hkDP n dist start (S ^^^ 2 ^ l) (hkPrev n dist start S l) + dist (hkPrev n dist start S l) l := by
  have hb : Nat.testBit S l = true := by
    by_contra hb
    apply hne
    unfold hkDP
    rw [hkCell_eq]
    simp [hb]
  unfold hkDP hkPrev at *
  rw [hkCell_eq] at *
  simp only [hb, if_true] at *
  rcases argminFold_cases (hkCand n dist start S l) (hkBase start S l, 0) n with
    heq | ⟨_, i, hi, hg, hsnd⟩
  · rw [heq] at hne
    exact absurd rfl hne
  · unfold hkCand at hg
    by_cases hcond : i ≠ l ∧ Nat.testBit S i = true ∧
        hkDP n dist start (S ^^^ 2 ^ l) i ≠ INTMAX
    · rw [if_pos (by exact ⟨hcond.1, hcond.2.1, hcond.2.2⟩)] at hg
      have hval := (Option.some_injective ℤ hg).symm
      unfold hkDP at hcond hval
      rw [hsnd]
      exact ⟨hb, hi, hcond.1, hcond.2.1, hcond.2.2, hval⟩
    · rw [if_neg (by tauto)] at hg
      exact absurd hg (by simp)

theorem hkDP_singleton (n : ℕ) (dist : ℕ → ℕ → ℤ) (start : ℕ) :
    hkDP n dist start (2 ^ start) start = 0 := by
  rcases hkDP_cases n dist start (2 ^ start) start with h | ⟨i, _, _, hil, hiS, _, _⟩
  · rw [h]
    unfold hkBase
    rw [if_pos ⟨rfl, rfl⟩]
  · rw [Nat.testBit_two_pow] at hiS
    simp only [decide_eq_true_eq] at hiS
    exact absurd hiS.symm hil

/-- Every dp entry that is not the sentinel is realized by an actual simple
path from the start over exactly the subset, ending at the column node. -/
theorem hkDP_realizable (n : ℕ) (dist : ℕ → ℕ → ℤ) (start : ℕ) :
    ∀ S l, hkDP n dist start S l ≠ INTMAX →
      ∃ p, IsPathOver start S l p ∧ pathCost dist p = hkDP n dist start S l := by
  intro S
  induction S using Nat.strong_induction_on with
  | _ S ih =>
    intro l hne
    rcases hkDP_cases n dist start S l with hbase | ⟨i, hb, _, hil, _, hfin, heq⟩
    · rw [hbase] at hne ⊢
      unfold hkBase at hne ⊢
      by_cases hc : S = 2 ^ start ∧ l = start
      · refine ⟨[start], ⟨rfl, by simp [hc.2], List.nodup_singleton start, ?_⟩, ?_⟩
        · intro x
          rw [hc.1, Nat.testBit_two_pow]
          simp [eq_comm]
        · rw [if_pos hc]
          rfl
      · rw [if_neg hc] at hne
        exact absurd rfl hne
    · obtain ⟨q, hq, hqcost⟩ := ih (S ^^^ 2 ^ l) (xor_pow_lt hb) i hfin
      refine ⟨q ++ [l], isPathOver_concat hb hq, ?_⟩
      rw [pathCost_concat dist q i l hq.2.1, hqcost, heq]

/-- The dp entry is a lower bound on the cost of every simple path from the
start over exactly the subset, ending at the column node. -/
theorem hkDP_le_pathCost (n : ℕ) (dist : ℕ → ℕ → ℤ) (start : ℕ) (B : ℤ)
    (hB : ∀ i j, i < n → j < n → dist i j ≤ B)
    (hB0 : 0 ≤ B)
    (hbound : (n : ℤ) * B ≤ INTMAX) :
    ∀ S, S < 2 ^ n → ∀ l (p : List ℕ), IsPathOver start S l p →
      hkDP n dist start S l ≤ pathCost dist p := by
  intro S
  induction S using Nat.strong_induction_on with
  | _ S ih =>
    intro hSn l p hp
    by_cases hlen : 2 ≤ p.length
    · obtain ⟨q, i, hpq, hq, hqi, hbl, hil⟩ := isPathOver_split hp hlen
      have hS'lt : S ^^^ 2 ^ l < S := xor_pow_lt hbl
      have hS'n : S ^^^ 2 ^ l < 2 ^ n := lt_trans hS'lt hSn
      have hql : hkDP n dist start (S ^^^ 2 ^ l) i ≤ pathCost dist q :=
        ih _ hS'lt hS'n i q hq
      have hqmem : ∀ x ∈ q, x < n := fun x hx => coversExactly_mem_lt hS'n hq.2.2 hx
      have hqcost : pathCost dist q ≤ ((q.length - 1 : ℕ) : ℤ) * B :=
        pathCost_le dist n B hB q hqmem
      have hplen : p.length ≤ n := coversExactly_length_le hSn hp.2.2
      have hq_len : q.length + 1 = p.length := by
        rw [hpq]
        simp
      have hqne : q ≠ [] := by
        intro hc
        rw [hc] at hq
        exact absurd hq.1 (by simp)
      have hq_pos : 0 < q.length := List.length_pos.mpr hqne
      have hlenq1 : (q.length - 1 : ℕ) + 1 ≤ n := by omega
      have hkB : ((q.length - 1 : ℕ) : ℤ) * B < INTMAX := by
        have hle1 : ((q.length - 1 : ℕ) : ℤ) + 1 ≤ (n : ℤ) := by exact_mod_cast hlenq1
        rcases eq_or_lt_of_le hB0 with hb0 | hb1
        · rw [← hb0, mul_zero]
          unfold INTMAX
          norm_num
        · have hk_le : ((q.length - 1 : ℕ) : ℤ) ≤ (n : ℤ) - 1 := by linarith
          have hmul := mul_le_mul_of_nonneg_right hk_le (le_of_lt hb1)
          have h2 : ((n : ℤ) - 1) * B = (n : ℤ) * B - B := by ring
          linarith
      have hfin : hkDP n dist start (S ^^^ 2 ^ l) i ≠ INTMAX := by
        intro hcontra
        rw [hcontra] at hql
        linarith
      have hiS : Nat.testBit S i = true := by
        have h2 := (hq.2.2.2 i).mp (List.mem_of_mem_getLast? (by rw [hqi]; rfl))
        rw [testBit_xor_pow hbl i, if_neg hil] at h2
        exact h2
      have hi_lt : i < n := testBit_lt hSn hiS
      have hle := hkDP_le_cand n dist start S l i hbl hi_lt hil hiS hfin
      rw [hpq, pathCost_concat dist q i l hqi]
      linarith
    · push_neg at hlen
      have hpne : p ≠ [] := by
        intro hc
        rw [hc] at hp
        exact absurd hp.1 (by simp)
      have hlen1 : p.length = 1 := by
        have h1 : 0 < p.length := List.length_pos.mpr hpne
        omega
      obtain ⟨a, rfl⟩ := List.length_eq_one.mp hlen1
      obtain ⟨hh, hl, _, hmem⟩ := hp
      have ha2 : a = l := by simpa using hl
      have ha1 : a = start := by simpa using hh
      have hls : l = start := ha2 ▸ ha1
      have hS : S = 2 ^ start := by
        apply Nat.eq_of_testBit_eq
        intro y
        rw [Nat.testBit_two_pow]
        by_cases hy : y = start
        · subst hy
          have hmm := (hmem y).mp (by simp [ha1])
          simp [hmm]
        · have hnotin : y ∉ [a] := by
            rw [List.mem_singleton, ha1]
            exact hy
          have hf : ¬ Nat.testBit S y = true := fun hc => hnotin ((hmem y).mpr hc)
          rw [Bool.not_eq_true] at hf
          rw [hf]
          simp
          exact fun h => hy h.symm
      rw [hS, hls]
      have hb0 := hkDP_le_base n dist start (2 ^ start) start
      unfold hkBase at hb0
      rw [if_pos ⟨rfl, rfl⟩] at hb0
      have hpc : pathCost dist [a] = 0 := rfl
      rw [hpc]
      exact hb0

theorem hkBase_le_intmax (start S l : ℕ) : hkBase start S l ≤ INTMAX := by
  unfold hkBase
  by_cases hc : S = 2 ^ start ∧ l = start
  · rw [if_pos hc]
    unfold INTMAX
    norm_num
  · rw [if_neg hc]

theorem hkDP_le_intmax (n : ℕ) (dist : ℕ → ℕ → ℤ) (start S l : ℕ) :
    hkDP n dist start S l ≤ INTMAX :=
  le_trans (hkDP_le_base n dist start S l) (hkBase_le_intmax start S l)

theorem getLast?_cons_eq_getLastD (a : ℕ) (t : List ℕ) :
    (a :: t).getLast? = some (t.getLastD a) := by
  induction t generalizing a with
  | nil => rfl
  | cons b t2 ih =>
    rw [List.getLast?_cons_cons, List.getLastD_cons]
    exact ih b

theorem coversExactly_range (n : ℕ) : CoversExactly (2 ^ n - 1) (List.range n) := by
  refine ⟨List.nodup_range n, ?_⟩
  intro x
  rw [Nat.testBit_two_pow_sub_one]
  simp

theorem coversExactly_two_pow_length {s : ℕ} {w : List ℕ}
    (hw : CoversExactly (2 ^ s) w) : w.length = 1 := by
  have hsingle : CoversExactly (2 ^ s) [s] := by
    refine ⟨List.nodup_singleton s, ?_⟩
    intro x
    rw [Nat.testBit_two_pow]
    simp [eq_comm]
  exact coversExactly_length_eq hw hsingle

/-- A canonical Hamiltonian path from `start` to `l` on the full node set,
witnessing that the complete graph always has one. -/
def canonPath (n start l : ℕ) : List ℕ :=
  (start :: (List.range n).filter (fun x => decide (x ≠ start ∧ x ≠ l))) ++ [l]

theorem canonPath_isPathOver (n start l : ℕ) (hs : start < n) (hl : l < n)
    (hne : start ≠ l) : IsPathOver start (2 ^ n - 1) l (canonPath n start l) := by
  set u := (List.range n).filter (fun x => decide (x ≠ start ∧ x ≠ l)) with hu
  have humem : ∀ x, x ∈ u ↔ (x < n ∧ x ≠ start ∧ x ≠ l) := by
    intro x
    rw [hu, List.mem_filter, List.mem_range]
    simp
  refine ⟨?_, ?_, ?_, ?_⟩
  · rw [canonPath, List.cons_append]
    rfl
  · rw [canonPath]
    exact List.getLast?_concat _
  · rw [canonPath, List.nodup_append]
    refine ⟨?_, List.nodup_singleton l, ?_⟩
    · rw [List.nodup_cons]
      refine ⟨?_, List.Nodup.filter _ (List.nodup_range n)⟩
      intro hcontra
      have := (humem start).mp hcontra
      tauto
    · intro x hx hx2
      rw [List.mem_singleton] at hx2
      subst hx2
      rcases List.mem_cons.mp hx with h | h
      · exact hne h.symm
      · have := (humem x).mp h
        tauto
  · intro x
    rw [canonPath, List.mem_append, List.mem_cons, List.mem_singleton,
      Nat.testBit_two_pow_sub_one, humem x]
    simp only [decide_eq_true_eq]
    constructor
    · rintro ((rfl | h) | rfl)
      · exact hs
      · exact h.1
      · exact hl
    · intro hx
      by_cases h1 : x = start
      · exact Or.inl (Or.inl h1)
      · by_cases h2 : x = l
        · exact Or.inr h2
        · exact Or.inl (Or.inr ⟨hx, h1, h2⟩)

/-- What the tour-closing loop of heldkarp.c lines 122-129 computes, under
bounds that keep every genuine tour cost strictly below the sentinel. -/
theorem hkClose_spec (n : ℕ) (dist : ℕ → ℕ → ℤ) (start : ℕ) (B : ℤ)
    (hs : start < n)
    (hnn : ∀ i j, i < n → j < n → 0 ≤ dist i j)
    (hB : ∀ i j, i < n → j < n → dist i j ≤ B)
    (hB0 : 0 ≤ B)
    (hbound : (n : ℤ) * B < INTMAX) :
    (hkClose n dist start).1 < INTMAX ∧ (hkClose n dist start).2 < n ∧
      hkDP n dist start (2 ^ n - 1) (hkClose n dist start).2 ≠ INTMAX ∧
      (hkClose n dist start).1 =
        hkDP n dist start (2 ^ n - 1) (hkClose n dist start).2 +
          dist (hkClose n dist start).2 start ∧
      (∀ l, l < n →
        (hkClose n dist start).1 ≤ hkDP n dist start (2 ^ n - 1) l + dist l start) := by
  have hn1 : 1 ≤ n := by omega
  have hmin : ∀ l, l < n →
      (hkClose n dist start).1 ≤ hkDP n dist start (2 ^ n - 1) l + dist l start := by
    intro l hl
    exact argminFold_le_cand _ _ n l hl _ rfl
  have hlt : (hkClose n dist start).1 < INTMAX := by
    by_cases hn2 : 2 ≤ n
    · set l0 := if start = 0 then 1 else 0 with hl0
      have hl0n : l0 < n := by
        rw [hl0]
        by_cases h0 : start = 0
        · rw [if_pos h0]
          omega
        · rw [if_neg h0]
          omega
      have hl0ne : start ≠ l0 := by
        rw [hl0]
        by_cases h0 : start = 0
        · rw [if_pos h0]
          omega
        · rw [if_neg h0]
          omega
      have hpath := canonPath_isPathOver n start l0 hs hl0n hl0ne
      have hfull : 2 ^ n - 1 < 2 ^ n := by
        have := Nat.one_le_two_pow (n := n)
        omega
      have hdp : hkDP n dist start (2 ^ n - 1) l0 ≤ pathCost dist (canonPath n start l0) :=
        hkDP_le_pathCost n dist start B hB hB0 (le_of_lt hbound) _ hfull l0 _ hpath
      have hcmem : ∀ x ∈ canonPath n start l0, x < n :=
        fun x hx => coversExactly_mem_lt hfull hpath.2.2 hx
      have hclen : (canonPath n start l0).length ≤ n :=
        coversExactly_length_le hfull hpath.2.2
      have hcost : pathCost dist (canonPath n start l0) ≤
          (((canonPath n start l0).length - 1 : ℕ) : ℤ) * B :=
        pathCost_le dist n B hB _ hcmem
      have hcast : (((canonPath n start l0).length - 1 : ℕ) : ℤ) * B ≤ ((n - 1 : ℕ) : ℤ) * B := by
        apply mul_le_mul_of_nonneg_right _ hB0
        have h1 : ((canonPath n start l0).length - 1 : ℕ) ≤ (n - 1 : ℕ) := by omega
        exact_mod_cast h1
      have hedge : dist l0 start ≤ B := hB l0 start hl0n hs
      have hnb : ((n - 1 : ℕ) : ℤ) * B + B ≤ (n : ℤ) * B := by
        have h1 : ((n - 1 : ℕ) : ℤ) = (n : ℤ) - 1 := by
          have : (1 : ℕ) ≤ n := hn1
          push_cast [this]
          ring
        rw [h1]
        ring_nf
        linarith
      calc (hkClose n dist start).1
          ≤ hkDP n dist start (2 ^ n - 1) l0 + dist l0 start := hmin l0 hl0n
        _ ≤ (((canonPath n start l0).length - 1 : ℕ) : ℤ) * B + B := by linarith
        _ ≤ ((n - 1 : ℕ) : ℤ) * B + B := by linarith
        _ ≤ (n : ℤ) * B := hnb
        _ < INTMAX := hbound
    · have hn : n = 1 := by omega
      have hs0 : start = 0 := by omega
      subst hs0
      have hdp : hkDP n dist 0 (2 ^ n - 1) 0 = 0 := by
        rw [hn]
        rw [show (2 : ℕ) ^ 1 - 1 = 2 ^ 0 by norm_num]
        exact hkDP_singleton 1 dist 0
      have h00 : dist 0 0 ≤ B := hB 0 0 (by omega) (by omega)
      have hcand := hmin 0 (by omega)
      rw [hdp] at hcand
      have h1B : (1 : ℤ) * B ≤ (n : ℤ) * B := by
        rw [hn]
        push_cast
        linarith
      linarith
  rcases argminFold_cases
      (fun last => some (hkDP n dist start (2 ^ n - 1) last + dist last start))
      (INTMAX, 0) n with heq | ⟨_, e, he, hg, hsnd⟩
  · rw [show hkClose n dist start =
        argminFold (fun last => some (hkDP n dist start (2 ^ n - 1) last + dist last start))
          (INTMAX, 0) n from rfl, heq] at hlt
    exact absurd hlt (by simp)
  · have hgc : hkClose n dist start =
        argminFold (fun last => some (hkDP n dist start (2 ^ n - 1) last + dist last start))
          (INTMAX, 0) n := rfl
    rw [← hgc] at hg hsnd
    have hval : (hkClose n dist start).1 =
        hkDP n dist start (2 ^ n - 1) e + dist e start := by
      have := Option.some_injective ℤ hg
      omega
    have hfin : hkDP n dist start (2 ^ n - 1) (hkClose n dist start).2 ≠ INTMAX := by
      rw [hsnd]
      have hd0 : 0 ≤ dist e start := hnn e start he hs
      have hle : hkDP n dist start (2 ^ n - 1) e ≤ (hkClose n dist start).1 := by
        rw [hval]
        linarith
      intro hcontra
      rw [hcontra] at hle
      linarith
    refine ⟨hlt, ?_, hfin, ?_, hmin⟩
    · rw [hsnd]
      exact he
    · rw [hsnd]
      exact hval

/-- Backtracking correctness: starting from a finite dp cell whose subset has
`k + 1` nodes, the loop of heldkarp.c lines 132-138 follows `prev` pointers
through written entries only and emits the tail of a path realizing that dp
cell, in order. -/
theorem hkGo_spec (n : ℕ) (dist : ℕ → ℕ → ℤ) (start : ℕ) :
    ∀ (k S e : ℕ) (acc : List ℕ),
      hkDP n dist start S e ≠ INTMAX →
      (∃ w, CoversExactly S w ∧ w.length = k + 1) →
      ∃ q, IsPathOver start S e q ∧ pathCost dist q = hkDP n dist start S e ∧
        hkGo n dist start k S e acc = q.tail ++ acc := by
  intro k
  induction k with
  | zero =>
    intro S e acc hne hw
    obtain ⟨q, hq, hqc⟩ := hkDP_realizable n dist start S e hne
    obtain ⟨w, hwc, hwlen⟩ := hw
    have hqlen : q.length = 1 := by
      rw [coversExactly_length_eq hq.2.2 hwc, hwlen]
    obtain ⟨a, ha⟩ := List.length_eq_one.mp hqlen
    refine ⟨q, hq, hqc, ?_⟩
    rw [ha]
    rfl
  | succ k ih =>
    intro S e acc hne hw
    obtain ⟨w, hwc, hwlen⟩ := hw
    have hbase : hkBase start S e = INTMAX := by
      unfold hkBase
      rw [if_neg]
      rintro ⟨h1, _⟩
      rw [h1] at hwc
      have := coversExactly_two_pow_length hwc
      omega
    have hneb : hkDP n dist start S e ≠ hkBase start S e := by
      rw [hbase]
      exact hne
    obtain ⟨hbe, hprev_lt, hprev_ne, hprevS, hprevfin, hprev_eq⟩ :=
      hkPrev_spec n dist start S e hneb
    obtain ⟨q', hq', _⟩ := hkDP_realizable n dist start (S ^^^ 2 ^ e)
      (hkPrev n dist start S e) hprevfin
    have hconc := isPathOver_concat hbe hq'
    have hlenq' : q'.length + 1 = k + 2 := by
      have h1 := coversExactly_length_eq hconc.2.2 hwc
      simp only [List.length_append, List.length_singleton] at h1
      omega
    obtain ⟨q2, hq2, hq2c, hq2go⟩ := ih (S ^^^ 2 ^ e) (hkPrev n dist start S e)
      (e :: acc) hprevfin ⟨q', hq'.2.2, by omega⟩
    have hq2ne : q2 ≠ [] := by
      intro hc
      rw [hc] at hq2
      exact absurd hq2.1 (by simp)
    refine ⟨q2 ++ [e], isPathOver_concat hbe hq2, ?_, ?_⟩
    · rw [pathCost_concat dist q2 (hkPrev n dist start S e) e hq2.2.1, hq2c, ← hprev_eq]
    · have hstep : hkGo n dist start (k + 1) S e acc =
          hkGo n dist start k (S ^^^ 2 ^ e) (hkPrev n dist start S e) (e :: acc) := rfl
      rw [hstep, hq2go]
      obtain ⟨a, t, rfl⟩ : ∃ a t, q2 = a :: t := by
        cases q2 with
        | nil => exact absurd rfl hq2ne
        | cons a t => exact ⟨a, t, rfl⟩
      simp

/-- Full correctness of the Held-Karp solver on its own terms: the returned
path realizes a minimum-cost Hamiltonian path closed back to the start, and
the returned cost is both achieved and a lower bound over all such paths. -/
theorem held_karp_correct (n : ℕ) (dist : ℕ → ℕ → ℤ) (start : ℕ) (B : ℤ)
    (hs : start < n)
    (hnn : ∀ i j, i < n → j < n → 0 ≤ dist i j)
    (hB : ∀ i j, i < n → j < n → dist i j ≤ B)
    (hB0 : 0 ≤ B)
    (hbound : (n : ℤ) * B < INTMAX) :
    ∃ q, (held_karp n dist start).path = q ∧
      IsPathOver start (2 ^ n - 1) (hkClose n dist start).2 q ∧
      (held_karp n dist start).cost = cycleCost dist q ∧
      ∀ (p : List ℕ) (l : ℕ), IsPathOver start (2 ^ n - 1) l p →
        (held_karp n dist start).cost ≤ cycleCost dist p := by
  have hn1 : 1 ≤ n := by omega
  obtain ⟨hlt, he_lt, hfin, hval, hmin⟩ := hkClose_spec n dist start B hs hnn hB hB0 hbound
  obtain ⟨q, hq, hqcost, hqgo⟩ := hkGo_spec n dist start (n - 1) (2 ^ n - 1)
    (hkClose n dist start).2 [] hfin
    ⟨List.range n, coversExactly_range n, by simp; omega⟩
  have hpath : (held_karp n dist start).path = q := by
    show start :: hkGo n dist start (n - 1) (2 ^ n - 1) (hkClose n dist start).2 [] = q
    rw [hqgo, List.append_nil]
    cases q with
    | nil => exact absurd hq.1 (by simp)
    | cons a t =>
      have ha : a = start := by
        have := hq.1
        simp at this
        omega
      rw [ha]
      rfl
  have hclose : closeEdge dist q = dist (hkClose n dist start).2 start := by
    cases q with
    | nil => exact absurd hq.1 (by simp)
    | cons a t =>
      have ha : a = start := by
        have := hq.1
        simp at this
        omega
      have hlast : (a :: t).getLast? = some (t.getLastD a) := getLast?_cons_eq_getLastD a t
      have hl2 := hq.2.1
      rw [hlast] at hl2
      have : t.getLastD a = (hkClose n dist start).2 := by
        simpa using hl2
      show dist (t.getLastD a) a = dist (hkClose n dist start).2 start
      rw [this, ha]
  have hcost : (held_karp n dist start).cost = cycleCost dist q := by
    show (hkClose n dist start).1 = cycleCost dist q
    rw [cycleCost, hclose, hqcost, hval]
  refine ⟨q, hpath, hq, hcost, ?_⟩
  intro p l hp
  have hlp : l ∈ p := List.mem_of_mem_getLast? (by rw [hp.2.1]; rfl)
  have hfull : 2 ^ n - 1 < 2 ^ n := by
    have := Nat.one_le_two_pow (n := n)
    omega
  have hl_lt : l < n := coversExactly_mem_lt hfull hp.2.2 hlp
  have hdp_le : hkDP n dist start (2 ^ n - 1) l ≤ pathCost dist p :=
    hkDP_le_pathCost n dist start B hB hB0 (le_of_lt hbound) _ hfull l p hp
  have hclosep : closeEdge dist p = dist l start := by
    cases p with
    | nil => exact absurd hp.1 (by simp)
    | cons a t =>
      have ha : a = start := by
        have := hp.1
        simp at this
        omega
      have hlast : (a :: t).getLast? = some (t.getLastD a) := getLast?_cons_eq_getLastD a t
      have hl2 := hp.2.1
      rw [hlast] at hl2
      have hgl : t.getLastD a = l := by simpa using hl2
      show dist (t.getLastD a) a = dist l start
      rw [hgl, ha]
  show (hkClose n dist start).1 ≤ cycleCost dist p
  rw [cycleCost, hclosep]
  have := hmin l hl_lt
  linarith

/-- Bridge between bitmask paths over the full subset and Hamiltonian cycle
representatives: permutations of `range n` starting at `start`. -/
theorem isPathOver_full_iff (n start : ℕ) (q : List ℕ) :
    (∃ l, IsPathOver start (2 ^ n - 1) l q) ↔ q ∈ hamCycles n start := by
  constructor
  · rintro ⟨l, hh, hl, hnd, hmem⟩
    rw [hamCycles, List.mem_filter]
    constructor
    · rw [List.mem_permutations]
      rw [List.perm_ext_iff_of_nodup hnd (List.nodup_range n)]
      intro x
      rw [hmem x, Nat.testBit_two_pow_sub_one, List.mem_range]
      simp
    · rw [hh]
      simp
  · intro hq
    rw [hamCycles, List.mem_filter] at hq
    obtain ⟨hperm, hhead⟩ := hq
    rw [List.mem_permutations] at hperm
    have hnd : q.Nodup := hperm.symm.nodup (List.nodup_range n)
    have hne : q ≠ [] := by
      intro hc
      rw [hc] at hhead
      simp at hhead
    obtain ⟨l, hl⟩ : ∃ l, q.getLast? = some l := by
      cases hql : q.getLast? with
      | none => exact absurd (List.getLast?_eq_none_iff.mp hql) hne
      | some l => exact ⟨l, rfl⟩
    refine ⟨l, ?_, hl, hnd, ?_⟩
    · simpa using hhead
    · intro x
      rw [Nat.testBit_two_pow_sub_one]
      rw [hperm.mem_iff, List.mem_range]
      simp

/-! ## Nearest-neighbor solver lemmas -/

/-- The closing edge of a cycle in terms of the path's first and last nodes. -/
theorem closeEdge_spec (dist : ℕ → ℕ → ℤ) (p : List ℕ) (h g : ℕ)
    (hh : p.head? = some h) (hg : p.getLast? = some g) :
    closeEdge dist p = dist g h := by
  cases p with
  | nil => simp at hh
  | cons a t =>
    have ha : a = h := by simpa using hh
    have hlast : (a :: t).getLast? = some (t.getLastD a) := getLast?_cons_eq_getLastD a t
    rw [hlast] at hg
    have hgl : t.getLastD a = g := by simpa using hg
    show dist (t.getLastD a) a = dist g h
    rw [hgl, ha]

/-- What `find_nearest_neighbor` returns when some unvisited node beats the
`999` sentinel: the unvisited node of strictly minimum cost from `cur`,
lowest index first on ties. -/
theorem find_nearest_neighbor_spec (n cur : ℕ) (table : ℕ → ℕ → ℤ)
    (visited : ℕ → Bool)
    (hex : ∃ i, i < n ∧ i ≠ cur ∧ visited i = false ∧ table cur i < 999) :
    find_nearest_neighbor n cur table visited < n ∧
      find_nearest_neighbor n cur table visited ≠ cur ∧
      visited (find_nearest_neighbor n cur table visited) = false ∧
      (∀ j, j < n → j ≠ cur → visited j = false →
        table cur (find_nearest_neighbor n cur table visited) ≤ table cur j) ∧
      (∀ j, j < find_nearest_neighbor n cur table visited → j ≠ cur → visited j = false →
        table cur (find_nearest_neighbor n cur table visited) < table cur j) := by
  obtain ⟨i0, hi0n, hi0c, hi0v, hi0s⟩ := hex
  set g : ℕ → Option ℤ :=
    fun i => if i ≠ cur ∧ visited i = false then some (table cur i) else none with hgdef
  set F := argminFold g (999, cur) n with hFdef
  have hg0 : g i0 = some (table cur i0) := by
    rw [hgdef]
    simp only [if_pos (And.intro hi0c hi0v)]
  have hlt : F.1 < 999 :=
    lt_of_le_of_lt (argminFold_le_cand g (999, cur) n i0 hi0n _ hg0) hi0s
  have hne : F ≠ (999, cur) := by
    intro hc
    rw [hc] at hlt
    simp at hlt
  rcases argminFold_cases g (999, cur) n with heq | ⟨_, i, hi, hgi, hsnd⟩
  · exact absurd heq hne
  · rw [← hFdef] at hgi hsnd
    have hgi2 : (if i ≠ cur ∧ visited i = false then some (table cur i) else none) =
        some F.1 := hgi
    have hcond : i ≠ cur ∧ visited i = false := by
      by_contra hcontra
      rw [if_neg hcontra] at hgi2
      exact Option.noConfusion hgi2
    have hval : table cur i = F.1 := by
      rw [if_pos hcond] at hgi2
      exact Option.some_injective ℤ hgi2
    have hres : find_nearest_neighbor n cur table visited = F.2 := rfl
    rw [hres, hsnd]
    refine ⟨hi, hcond.1, hcond.2, ?_, ?_⟩
    · intro j hj hjc hjv
      have hgj : g j = some (table cur j) := by
        rw [hgdef]
        simp only [if_pos (And.intro hjc hjv)]
      have := argminFold_le_cand g (999, cur) n j hj _ hgj
      rw [← hFdef] at this
      rw [hval]
      exact this
    · intro j hj hjc hjv
      have hgj : g j = some (table cur j) := by
        rw [hgdef]
        simp only [if_pos (And.intro hjc hjv)]
      have hfw := argminFold_first_wins g (999, cur) n (by rw [← hFdef]; exact hne)
      rw [← hFdef] at hfw
      have := hfw j (by rw [← hsnd] at hj; exact hj) _ hgj
      rw [hval]
      exact this

/-- When every unvisited node costs at least the sentinel `999` from `cur`,
`find_nearest_neighbor` returns `cur` itself (nearestneighbor.c line 26). -/
theorem find_nearest_neighbor_stuck (n cur : ℕ) (table : ℕ → ℕ → ℤ)
    (visited : ℕ → Bool)
    (hall : ∀ i, i < n → i ≠ cur → visited i = false → 999 ≤ table cur i) :
    find_nearest_neighbor n cur table visited = cur := by
  set g : ℕ → Option ℤ :=
    fun i => if i ≠ cur ∧ visited i = false then some (table cur i) else none with hgdef
  rcases argminFold_cases g (999, cur) n with heq | ⟨hlt, i, hi, hgi, _⟩
  · show (argminFold g (999, cur) n).2 = cur
    rw [heq]
  · have hgi2 : (if i ≠ cur ∧ visited i = false then some (table cur i) else none) =
        some (argminFold g (999, cur) n).1 := hgi
    have hcond : i ≠ cur ∧ visited i = false := by
      by_contra hcontra
      rw [if_neg hcontra] at hgi2
      exact Option.noConfusion hgi2
    have hval : table cur i = (argminFold g (999, cur) n).1 := by
      rw [if_pos hcond] at hgi2
      exact Option.some_injective ℤ hgi2
    have h999 := hall i hi hcond.1 hcond.2
    have hlt2 : (argminFold g (999, cur) n).1 < 999 := hlt
    rw [hval] at h999
    exact absurd hlt2 (not_lt.mpr h999)

/-- Cost bookkeeping of the nearest-neighbor loop, valid for every matrix:
the final cost is exactly the cycle cost of the final path, and the final
path still begins (after reversal) at node 0. -/
theorem nnGo_cost (n : ℕ) (dist : ℕ → ℕ → ℤ) :
    ∀ (k : ℕ) (v : ℕ → Bool) (cur : ℕ) (acc : List ℕ) (cost : ℤ),
      acc.head? = some cur → acc.getLast? = some 0 →
      cost = pathCost dist acc.reverse →
      (nnGo n dist k v cur acc cost).1.head? = some 0 ∧
        (nnGo n dist k v cur acc cost).2 =
          cycleCost dist (nnGo n dist k v cur acc cost).1 := by
  intro k
  induction k with
  | zero =>
    intro v cur acc cost hh hl hc
    have hrh : acc.reverse.head? = some 0 := by
      rw [List.head?_reverse]
      exact hl
    have hrl : acc.reverse.getLast? = some cur := by
      rw [List.getLast?_reverse]
      exact hh
    refine ⟨hrh, ?_⟩
    show cost + dist cur 0 = cycleCost dist acc.reverse
    rw [cycleCost, closeEdge_spec dist acc.reverse 0 cur hrh hrl, hc]
  | succ k ih =>
    intro v cur acc cost hh hl hc
    have hne : acc ≠ [] := by
      intro hcontra
      rw [hcontra] at hh
      simp at hh
    have hstep : nnGo n dist (k + 1) v cur acc cost =
        nnGo n dist k
          (fun j => v j || decide (j = find_nearest_neighbor n cur dist v))
          (find_nearest_neighbor n cur dist v)
          (find_nearest_neighbor n cur dist v :: acc)
          (cost + dist cur (find_nearest_neighbor n cur dist v)) := rfl
    rw [hstep]
    apply ih
    · rfl
    · rw [getLast?_cons_eq_getLastD]
      cases acc with
      | nil => exact absurd rfl hne
      | cons a t =>
        rw [List.getLastD_cons]
        have := getLast?_cons_eq_getLastD a t
        rw [this] at hl
        simpa using hl
    · rw [List.reverse_cons]
      rw [pathCost_concat dist acc.reverse cur _ (by rw [List.getLast?_reverse]; exact hh)]
      rw [hc]

/-- Every intermediate reversed prefix survives into the final path. -/
theorem nnGo_prefix (n : ℕ) (dist : ℕ → ℕ → ℤ) :
    ∀ (k : ℕ) (v : ℕ → Bool) (cur : ℕ) (acc : List ℕ) (cost : ℤ),
      ∃ rest, (nnGo n dist k v cur acc cost).1 = acc.reverse ++ rest := by
  intro k
  induction k with
  | zero =>
    intro v cur acc cost
    exact ⟨[], by simp [nnGo]⟩
  | succ k ih =>
    intro v cur acc cost
    obtain ⟨rest, hrest⟩ := ih
      (fun j => v j || decide (j = find_nearest_neighbor n cur dist v))
      (find_nearest_neighbor n cur dist v)
      (find_nearest_neighbor n cur dist v :: acc)
      (cost + dist cur (find_nearest_neighbor n cur dist v))
    refine ⟨find_nearest_neighbor n cur dist v :: rest, ?_⟩
    have hstep : nnGo n dist (k + 1) v cur acc cost =
        nnGo n dist k
          (fun j => v j || decide (j = find_nearest_neighbor n cur dist v))
          (find_nearest_neighbor n cur dist v)
          (find_nearest_neighbor n cur dist v :: acc)
          (cost + dist cur (find_nearest_neighbor n cur dist v)) := rfl
    rw [hstep, hrest, List.reverse_cons, List.append_assoc]
    rfl

/-- The greedy loop keeps extending by fresh nodes as long as every
off-diagonal cost beats the `999` sentinel, so the final path is a
permutation of `range n`. -/
theorem nnGo_perm (n : ℕ) (dist : ℕ → ℕ → ℤ)
    (hsmall : ∀ i j, i < n → j < n → i ≠ j → dist i j < 999) :
    ∀ (k : ℕ) (v : ℕ → Bool) (cur : ℕ) (acc : List ℕ) (cost : ℤ),
      acc.head? = some cur →
      acc.Nodup → (∀ x ∈ acc, x < n) →
      (∀ j, v j = true ↔ j ∈ acc) →
      acc.length + k = n →
      (nnGo n dist k v cur acc cost).1.Nodup ∧
        (∀ x, x ∈ (nnGo n dist k v cur acc cost).1 ↔ x < n) := by
  intro k
  induction k with
  | zero =>
    intro v cur acc cost hh hnd hmem hv hlen
    have hacc : ∀ x, x ∈ acc ↔ x < n := by
      have hsub : acc.toFinset ⊆ Finset.range n := by
        intro x hx
        rw [List.mem_toFinset] at hx
        exact Finset.mem_range.mpr (hmem x hx)
      have hcard : (Finset.range n).card ≤ acc.toFinset.card := by
        rw [Finset.card_range, List.toFinset_card_of_nodup hnd]
        omega
      have heq : acc.toFinset = Finset.range n :=
        Finset.eq_of_subset_of_card_le hsub hcard
      intro x
      rw [← List.mem_toFinset, heq, Finset.mem_range]
    constructor
    · show acc.reverse.Nodup
      rw [List.nodup_reverse]
      exact hnd
    · intro x
      show x ∈ acc.reverse ↔ x < n
      rw [List.mem_reverse]
      exact hacc x
  | succ k ih =>
    intro v cur acc cost hh hnd hmem hv hlen
    have hne : acc ≠ [] := by
      intro hcontra
      rw [hcontra] at hh
      simp at hh
    have hcur_mem : cur ∈ acc := List.mem_of_mem_head? (by rw [hh]; rfl)
    have hcur_lt : cur < n := hmem cur hcur_mem
    have hexfresh : ∃ i, i < n ∧ i ∉ acc := by
      by_contra hcontra
      push_neg at hcontra
      have hsub : Finset.range n ⊆ acc.toFinset := by
        intro x hx
        rw [List.mem_toFinset]
        exact hcontra x (Finset.mem_range.mp hx)
      have := Finset.card_le_card hsub
      rw [Finset.card_range, List.toFinset_card_of_nodup hnd] at this
      omega
    obtain ⟨i0, hi0n, hi0acc⟩ := hexfresh
    have hex : ∃ i, i < n ∧ i ≠ cur ∧ v i = false ∧ dist cur i < 999 := by
      refine ⟨i0, hi0n, ?_, ?_, ?_⟩
      · intro hcontra
        rw [hcontra] at hi0acc
        exact hi0acc hcur_mem
      · rw [← Bool.not_eq_true, hv i0]
        exact hi0acc
      · exact hsmall cur i0 hcur_lt hi0n
          (fun hcontra => hi0acc (hcontra ▸ hcur_mem))
    obtain ⟨hnext_lt, hnext_ne, hnext_unv, _, _⟩ :=
      find_nearest_neighbor_spec n cur dist v hex
    have hnext_notacc : find_nearest_neighbor n cur dist v ∉ acc := by
      intro hcontra
      rw [← hv _] at hcontra
      rw [hcontra] at hnext_unv
      simp at hnext_unv
    have hstep : nnGo n dist (k + 1) v cur acc cost =
        nnGo n dist k
          (fun j => v j || decide (j = find_nearest_neighbor n cur dist v))
          (find_nearest_neighbor n cur dist v)
          (find_nearest_neighbor n cur dist v :: acc)
          (cost + dist cur (find_nearest_neighbor n cur dist v)) := rfl
    rw [hstep]
    apply ih
    · rfl
    · rw [List.nodup_cons]
      exact ⟨hnext_notacc, hnd⟩
    · intro x hx
      rcases List.mem_cons.mp hx with rfl | hx2
      · exact hnext_lt
      · exact hmem x hx2
    · intro j
      simp only [Bool.or_eq_true, decide_eq_true_eq, List.mem_cons]
      rw [hv j]
      tauto
    · simp at hlen ⊢
      omega

/-- Assembly of the nearest-neighbor solver facts that hold for every
matrix: the path begins at node 0 and the returned cost is exactly the cost
of the closed cycle implied by the path. -/
theorem nearest_neighbor_cost_cycle (n : ℕ) (dist : ℕ → ℕ → ℤ) :
    (nearest_neighbor n dist).path.head? = some 0 ∧
      (nearest_neighbor n dist).cost =
        cycleCost dist (nearest_neighbor n dist).path := by
  have h := nnGo_cost n dist (n - 1) (fun j => decide (j = 0)) 0 [0] 0 rfl rfl rfl
  exact h

/-- Assembly of the nearest-neighbor permutation property when every
off-diagonal entry beats the sentinel 999. -/
theorem nearest_neighbor_perm (n : ℕ) (dist : ℕ → ℕ → ℤ) (hn : 1 ≤ n)
    (hsmall : ∀ i j, i < n → j < n → i ≠ j → dist i j < 999) :
    (nearest_neighbor n dist).path.Perm (List.range n) ∧
      (nearest_neighbor n dist).path.head? = some 0 := by
  have h := nnGo_perm n dist hsmall (n - 1) (fun j => decide (j = 0)) 0 [0] 0
    rfl (List.nodup_singleton 0) (by simpa using hn) (by intro j; simp) (by simp; omega)
  have hcost := nearest_neighbor_cost_cycle n dist
  refine ⟨?_, hcost.1⟩
  have hpath : (nearest_neighbor n dist).path =
      (nnGo n dist (n - 1) (fun j => decide (j = 0)) 0 [0] 0).1 := rfl
  rw [hpath]
  rw [List.perm_ext_iff_of_nodup h.1 (List.nodup_range n)]
  intro x
  rw [h.2 x, List.mem_range]

/-! ## Cyclic rotations preserve cycle cost -/

theorem cycleCost_rotate_one (dist : ℕ → ℕ → ℤ) (a : ℕ) (w : List ℕ) :
    cycleCost dist (a :: w) = cycleCost dist (w ++ [a]) := by
  cases w with
  | nil => rfl
  | cons b w2 =>
    have hg : (b :: w2).getLast? = some (w2.getLastD b) := getLast?_cons_eq_getLastD b w2
    have hL : cycleCost dist (a :: b :: w2) =
        dist a b + pathCost dist (b :: w2) + dist ((b :: w2).getLastD a) a := by
      rw [cycleCost]
      rfl
    have hgd : (b :: w2).getLastD a = w2.getLastD b := by
      rw [List.getLastD_cons]
    have hR1 : pathCost dist ((b :: w2) ++ [a]) =
        pathCost dist (b :: w2) + dist (w2.getLastD b) a :=
      pathCost_concat dist (b :: w2) _ a hg
    have hR2 : closeEdge dist ((b :: w2) ++ [a]) = dist a b := by
      have h1 : ((b :: w2) ++ [a]).head? = some b := rfl
      have h2 : ((b :: w2) ++ [a]).getLast? = some a := List.getLast?_concat _
      rw [closeEdge_spec dist _ b a h1 h2]
    have hRc : cycleCost dist ((b :: w2) ++ [a]) =
        pathCost dist ((b :: w2) ++ [a]) + closeEdge dist ((b :: w2) ++ [a]) := rfl
    rw [hL, hRc, hR1, hR2, hgd]
    ring

theorem cycleCost_append_comm (dist : ℕ → ℕ → ℤ) :
    ∀ u v : List ℕ, cycleCost dist (u ++ v) = cycleCost dist (v ++ u) := by
  intro u
  induction u with
  | nil => intro v; simp
  | cons a u2 ih =>
    intro v
    calc cycleCost dist ((a :: u2) ++ v)
        = cycleCost dist (a :: (u2 ++ v)) := by rw [List.cons_append]
      _ = cycleCost dist ((u2 ++ v) ++ [a]) := cycleCost_rotate_one dist a (u2 ++ v)
      _ = cycleCost dist (u2 ++ (v ++ [a])) := by rw [List.append_assoc]
      _ = cycleCost dist ((v ++ [a]) ++ u2) := ih (v ++ [a])
      _ = cycleCost dist (v ++ ([a] ++ u2)) := by rw [List.append_assoc]
      _ = cycleCost dist (v ++ (a :: u2)) := rfl

/-- Any Hamiltonian cycle cut at `s1` can be re-cut at any other node `s2`
without changing its cost. -/
theorem hamCycles_recut (n s2 : ℕ) (dist : ℕ → ℕ → ℤ) (hs2 : s2 < n)
    {s1 : ℕ} {q : List ℕ} (hq : q ∈ hamCycles n s1) :
    ∃ q2 ∈ hamCycles n s2, cycleCost dist q2 = cycleCost dist q := by
  rw [hamCycles, List.mem_filter] at hq
  obtain ⟨hperm, _⟩ := hq
  rw [List.mem_permutations] at hperm
  have hmem : s2 ∈ q := hperm.mem_iff.mpr (List.mem_range.mpr hs2)
  obtain ⟨u, v, rfl⟩ := List.append_of_mem hmem
  refine ⟨(s2 :: v) ++ u, ?_, ?_⟩
  · rw [hamCycles, List.mem_filter]
    constructor
    · rw [List.mem_permutations]
      exact List.Perm.trans List.perm_append_comm hperm
    · rw [List.cons_append]
      simp
  · exact cycleCost_append_comm dist (s2 :: v) u

/-- The Held-Karp cost is a member of, and a lower bound for, the costs of
all Hamiltonian cycles cut at the start node. -/
theorem held_karp_min (n : ℕ) (dist : ℕ → ℕ → ℤ) (start : ℕ) (B : ℤ)
    (hs : start < n)
    (hnn : ∀ i j, i < n → j < n → 0 ≤ dist i j)
    (hB : ∀ i j, i < n → j < n → dist i j ≤ B)
    (hB0 : 0 ≤ B)
    (hbound : (n : ℤ) * B < INTMAX) :
    (held_karp n dist start).cost ∈ (hamCycles n start).map (cycleCost dist) ∧
      ∀ c ∈ (hamCycles n start).map (cycleCost dist),
        (held_karp n dist start).cost ≤ c := by
  obtain ⟨q, hpath, hq, hcost, hminp⟩ :=
    held_karp_correct n dist start B hs hnn hB hB0 hbound
  constructor
  · rw [List.mem_map]
    refine ⟨q, ?_, hcost.symm⟩
    exact (isPathOver_full_iff n start q).mp ⟨(hkClose n dist start).2, hq⟩
  · intro c hc
    rw [List.mem_map] at hc
    obtain ⟨p, hpmem, hpc⟩ := hc
    obtain ⟨l, hpl⟩ := (isPathOver_full_iff n start p).mpr hpmem
    rw [← hpc]
    exact hminp p l hpl

/-- The Held-Karp cost does not depend on where the optimal cycle is cut. -/
theorem held_karp_start_invariant (n : ℕ) (dist : ℕ → ℕ → ℤ) (s1 s2 : ℕ) (B : ℤ)
    (hs1 : s1 < n) (hs2 : s2 < n)
    (hnn : ∀ i j, i < n → j < n → 0 ≤ dist i j)
    (hB : ∀ i j, i < n → j < n → dist i j ≤ B)
    (hB0 : 0 ≤ B)
    (hbound : (n : ℤ) * B < INTMAX) :
    (held_karp n dist s1).cost = (held_karp n dist s2).cost := by
  obtain ⟨hmem1, hmin1⟩ := held_karp_min n dist s1 B hs1 hnn hB hB0 hbound
  obtain ⟨hmem2, hmin2⟩ := held_karp_min n dist s2 B hs2 hnn hB hB0 hbound
  have h12 : (held_karp n dist s1).cost ≤ (held_karp n dist s2).cost := by
    rw [List.mem_map] at hmem2
    obtain ⟨q2, hq2, hc2⟩ := hmem2
    obtain ⟨q1, hq1, hcc⟩ := hamCycles_recut n s1 dist hs1 hq2
    have := hmin1 (cycleCost dist q1) (List.mem_map.mpr ⟨q1, hq1, rfl⟩)
    rw [hcc, hc2] at this
    exact this
  have h21 : (held_karp n dist s2).cost ≤ (held_karp n dist s1).cost := by
    rw [List.mem_map] at hmem1
    obtain ⟨q1, hq1, hc1⟩ := hmem1
    obtain ⟨q2, hq2, hcc⟩ := hamCycles_recut n s2 dist hs2 hq1
    have := hmin2 (cycleCost dist q2) (List.mem_map.mpr ⟨q2, hq2, rfl⟩)
    rw [hcc, hc1] at this
    exact this
  omega

/-! ## Remaining helper facts -/

theorem mul_lt_intmax {k n : ℕ} {B : ℤ} (hB0 : 0 ≤ B) (hk : k + 1 ≤ n)
    (hbound : (n : ℤ) * B ≤ INTMAX) : (k : ℤ) * B < INTMAX := by
  rcases eq_or_lt_of_le hB0 with hb0 | hb1
  · rw [← hb0, mul_zero]
    unfold INTMAX
    norm_num
  · have hk_le : (k : ℤ) ≤ (n : ℤ) - 1 := by
      have h1 : (k : ℤ) + 1 ≤ (n : ℤ) := by exact_mod_cast hk
      linarith
    have hmul := mul_le_mul_of_nonneg_right hk_le (le_of_lt hb1)
    have h2 : ((n : ℤ) - 1) * B = (n : ℤ) * B - B := by ring
    linarith

/-- For two or more nodes, the dp entry at (full set, start) keeps the
sentinel: no simple path from start back to start covers everything. -/
theorem hkDP_full_start (n : ℕ) (dist : ℕ → ℕ → ℤ) (start : ℕ)
    (hn2 : 2 ≤ n) :
    hkDP n dist start (2 ^ n - 1) start = INTMAX := by
  by_contra h
  obtain ⟨p, ⟨hh, hl, hnd, hmem⟩, _⟩ := hkDP_realizable n dist start _ start h
  cases p with
  | nil => simp at hh
  | cons a t =>
    have ha : a = start := by simpa using hh
    cases t with
    | nil =>
      set y := if start = 0 then 1 else 0 with hy
      have hyn : y < n := by
        rw [hy]
        by_cases h0 : start = 0
        · rw [if_pos h0]
          omega
        · rw [if_neg h0]
          omega
      have hyne : y ≠ start := by
        rw [hy]
        by_cases h0 : start = 0
        · rw [if_pos h0]
          omega
        · rw [if_neg h0]
          omega
      have hyin : y ∈ [a] := (hmem y).mpr (by
        rw [Nat.testBit_two_pow_sub_one]
        simp [hyn])
      rw [List.mem_singleton] at hyin
      exact hyne (hyin.trans ha)
    | cons b t2 =>
      rw [List.getLast?_cons_cons] at hl
      have hin : start ∈ b :: t2 := List.mem_of_mem_getLast? (by rw [hl]; rfl)
      rw [List.nodup_cons] at hnd
      rw [ha] at hnd
      exact hnd.1 hin

/-- For a node other than the start, the dp entry at the full set is finite
whenever costs are bounded so that no sum reaches the sentinel. -/
theorem hkDP_full_finite (n : ℕ) (dist : ℕ → ℕ → ℤ) (start l : ℕ) (B : ℤ)
    (hs : start < n) (hl : l < n) (hlne : l ≠ start)
    (hB : ∀ i j, i < n → j < n → dist i j ≤ B)
    (hB0 : 0 ≤ B)
    (hbound : (n : ℤ) * B ≤ INTMAX) :
    hkDP n dist start (2 ^ n - 1) l ≠ INTMAX := by
  have hpath := canonPath_isPathOver n start l hs hl (fun hc => hlne hc.symm)
  have hfull : 2 ^ n - 1 < 2 ^ n := by
    have := Nat.one_le_two_pow (n := n)
    omega
  have hdp : hkDP n dist start (2 ^ n - 1) l ≤ pathCost dist (canonPath n start l) :=
    hkDP_le_pathCost n dist start B hB hB0 hbound _ hfull l _ hpath
  have hcmem : ∀ x ∈ canonPath n start l, x < n :=
    fun x hx => coversExactly_mem_lt hfull hpath.2.2 hx
  have hclen : (canonPath n start l).length ≤ n :=
    coversExactly_length_le hfull hpath.2.2
  have hcne : canonPath n start l ≠ [] := by
    intro hc
    have := hpath.1
    rw [hc] at this
    simp at this
  have hcpos : 0 < (canonPath n start l).length := List.length_pos.mpr hcne
  have hcost : pathCost dist (canonPath n start l) ≤
      (((canonPath n start l).length - 1 : ℕ) : ℤ) * B :=
    pathCost_le dist n B hB _ hcmem
  have hlt : (((canonPath n start l).length - 1 : ℕ) : ℤ) * B < INTMAX :=
    mul_lt_intmax hB0 (by omega) hbound
  intro hcontra
  rw [hcontra] at hdp
  linarith

/-- The Held-Karp path is a permutation of the node set headed by the start
node, under the same bounds. -/
theorem held_karp_path_perm (n : ℕ) (dist : ℕ → ℕ → ℤ) (start : ℕ) (B : ℤ)
    (hs : start < n)
    (hnn : ∀ i j, i < n → j < n → 0 ≤ dist i j)
    (hB : ∀ i j, i < n → j < n → dist i j ≤ B)
    (hB0 : 0 ≤ B)
    (hbound : (n : ℤ) * B < INTMAX) :
    (held_karp n dist start).path.Perm (List.range n) ∧
      (held_karp n dist start).path.head? = some start := by
  obtain ⟨q, hpath, hq, _, _⟩ := held_karp_correct n dist start B hs hnn hB hB0 hbound
  have hmem := (isPathOver_full_iff n start q).mp ⟨(hkClose n dist start).2, hq⟩
  rw [hamCycles, List.mem_filter] at hmem
  rw [hpath]
  refine ⟨List.mem_permutations.mp hmem.1, ?_⟩
  have := hmem.2
  simpa using this

/-- A duplicate in the accumulator survives into the final NN path. -/
theorem nnGo_not_nodup (n : ℕ) (dist : ℕ → ℕ → ℤ) (k : ℕ) (v : ℕ → Bool)
    (cur : ℕ) (acc : List ℕ) (cost : ℤ) (hdup : ¬ acc.Nodup) :
    ¬ (nnGo n dist k v cur acc cost).1.Nodup := by
  obtain ⟨rest, hrest⟩ := nnGo_prefix n dist k v cur acc cost
  rw [hrest]
  intro hcontra
  rw [List.nodup_append] at hcontra
  exact hdup (List.nodup_reverse.mp hcontra.1)

/-- When every off-diagonal entry is at least the sentinel 999, the very
first greedy step repeats node 0 and the NN path is not duplicate-free. -/
theorem nearest_neighbor_stuck (n : ℕ) (dist : ℕ → ℕ → ℤ) (hn2 : 2 ≤ n)
    (hbig : ∀ i j, i < n → j < n → i ≠ j → 999 ≤ dist i j) :
    ¬ (nearest_neighbor n dist).path.Nodup := by
  have hfnn : find_nearest_neighbor n 0 dist (fun j => decide (j = 0)) = 0 := by
    apply find_nearest_neighbor_stuck
    intro i hi hic hiv
    exact hbig 0 i (by omega) hi (fun hc => hic hc.symm)
  have hpath : (nearest_neighbor n dist).path =
      (nnGo n dist (n - 1) (fun j => decide (j = 0)) 0 [0] 0).1 := rfl
  have hk : n - 1 = (n - 2) + 1 := by omega
  rw [hpath, hk]
  have hstep : nnGo n dist ((n - 2) + 1) (fun j => decide (j = 0)) 0 [0] 0 =
      nnGo n dist (n - 2)
        (fun j => decide (j = 0) ||
          decide (j = find_nearest_neighbor n 0 dist (fun j => decide (j = 0))))
        (find_nearest_neighbor n 0 dist (fun j => decide (j = 0)))
        (find_nearest_neighbor n 0 dist (fun j => decide (j = 0)) :: [0])
        (0 + dist 0 (find_nearest_neighbor n 0 dist (fun j => decide (j = 0)))) := rfl
  rw [hstep, hfnn]
  apply nnGo_not_nodup
  simp

/-! ## Claim theorems -/

/-- C1: for every n x n cost matrix with zero diagonal and non-negative
entries bounded so that no sum of n entries reaches `INT_MAX` (no
intermediate overflow), and every start node s < n, the cost returned by
`held_karp` equals the minimum, over all Hamiltonian cycles cut open at s, of
the sum of the n edge costs of the cycle; for any n (in particular n ≤ 8)
this is the brute-force minimum over the explicit list of all such cycles. -/
theorem C1_held_karp_optimal (n : ℕ) (dist : ℕ → ℕ → ℤ) (start : ℕ) (B : ℤ)
    (hs : start < n)
    (hd : ∀ i, i < n → ∀ j, j < n → 0 ≤ dist i j ∧ dist i j ≤ B)
    (_hdiag : ∀ i, i < n → dist i i = 0)
    (hbound : (n : ℤ) * B < INTMAX) :
    ((hamCycles n start).map (cycleCost dist)).min? =
      some ((held_karp n dist start).cost) := by
  have hnn : ∀ i j, i < n → j < n → 0 ≤ dist i j := fun i j hi hj => (hd i hi j hj).1
  have hB : ∀ i j, i < n → j < n → dist i j ≤ B := fun i j hi hj => (hd i hi j hj).2
  have hB0 : 0 ≤ B := le_trans (hd start hs start hs).1 (hd start hs start hs).2
  have h := held_karp_min n dist start B hs hnn hB hB0 hbound
  haveI : Std.Antisymm ((· : ℤ) ≤ ·) := ⟨fun h1 h2 => le_antisymm h1 h2⟩
  exact (List.min?_eq_some_iff (fun a => le_refl a) (fun a b => min_choice a b)
    (fun a b c => le_min_iff)).mpr ⟨h.1, fun b hb => h.2 b hb⟩

/-- Witness for C1 on the three-node matrix `mat3` with start 0. -/
theorem C1_held_karp_optimal_witness :
    ((hamCycles 3 0).map (cycleCost mat3)).min? = some ((held_karp 3 mat3 0).cost) :=
  C1_held_karp_optimal 3 mat3 0 4 (by decide) (by decide) (by decide) (by decide)

/-- C2 as stated is false: `mat999` is a valid cost matrix (zero diagonal,
non-negative entries), yet the nearest-neighbor solver returns the path
[0, 0], which is not a permutation of {0, 1}. -/
theorem C2_counterexample :
    (∀ i, i < 2 → ∀ j, j < 2 → 0 ≤ mat999 i j) ∧
      (∀ i, i < 2 → mat999 i i = 0) ∧
      (nearest_neighbor 2 mat999).path = [0, 0] ∧
      ¬ (nearest_neighbor 2 mat999).path.Perm (List.range 2) := by decide

/-- C2 amended: the Held-Karp path is a permutation of {0,...,n-1} with the
start node at position 0, for every start and every bounded valid matrix —
with no condition on the 999 sentinel; the nearest-neighbor path is a
permutation with node 0 — its fixed start — at position 0, provided every
off-diagonal entry is below the sentinel 999. -/
theorem C2_paths_perm (n : ℕ) (dist : ℕ → ℕ → ℤ) (start : ℕ) (B : ℤ)
    (hs : start < n)
    (hd : ∀ i, i < n → ∀ j, j < n → 0 ≤ dist i j ∧ dist i j ≤ B)
    (hbound : (n : ℤ) * B < INTMAX) :
    ((held_karp n dist start).path.Perm (List.range n) ∧
      (held_karp n dist start).path.head? = some start) ∧
    ((∀ i, i < n → ∀ j, j < n → i ≠ j → dist i j < 999) →
      (nearest_neighbor n dist).path.Perm (List.range n) ∧
        (nearest_neighbor n dist).path.head? = some 0) := by
  have hnn : ∀ i j, i < n → j < n → 0 ≤ dist i j := fun i j hi hj => (hd i hi j hj).1
  have hB : ∀ i j, i < n → j < n → dist i j ≤ B := fun i j hi hj => (hd i hi j hj).2
  have hB0 : 0 ≤ B := le_trans (hd start hs start hs).1 (hd start hs start hs).2
  refine ⟨held_karp_path_perm n dist start B hs hnn hB hB0 hbound, ?_⟩
  intro hsmall
  exact nearest_neighbor_perm n dist (by omega)
    (fun i j hi hj hij => hsmall i hi j hj hij)

/-- Witness for the amended C2: the Held-Karp conjunct on `mat999` (whose
off-diagonal entries reach the sentinel) with start 1, the nearest-neighbor
conjunct on `mat2`. -/
theorem C2_paths_perm_witness :
    ((held_karp 2 mat999 1).path.Perm (List.range 2) ∧
      (held_karp 2 mat999 1).path.head? = some 1) ∧
    ((nearest_neighbor 2 mat2).path.Perm (List.range 2) ∧
      (nearest_neighbor 2 mat2).path.head? = some 0) :=
  ⟨(C2_paths_perm 2 mat999 1 1000 (by decide) (by decide) (by decide)).1,
    (C2_paths_perm 2 mat2 0 5 (by decide) (by decide) (by decide)).2 (by decide)⟩

/-- C3: for bounded valid matrices and any start node, the integer cost
returned by each solver equals the sum of the n edge costs of the closed
cycle implied by the returned path (consecutive edges plus the closing edge
back to the head of the path).  For the nearest-neighbor solver this needs
no bounds at all. -/
theorem C3_cost_matches_path (n : ℕ) (dist : ℕ → ℕ → ℤ) (start : ℕ) (B : ℤ)
    (hs : start < n)
    (hd : ∀ i, i < n → ∀ j, j < n → 0 ≤ dist i j ∧ dist i j ≤ B)
    (hbound : (n : ℤ) * B < INTMAX) :
    (held_karp n dist start).cost = cycleCost dist (held_karp n dist start).path ∧
    (nearest_neighbor n dist).cost = cycleCost dist (nearest_neighbor n dist).path := by
  have hnn : ∀ i j, i < n → j < n → 0 ≤ dist i j := fun i j hi hj => (hd i hi j hj).1
  have hB : ∀ i j, i < n → j < n → dist i j ≤ B := fun i j hi hj => (hd i hi j hj).2
  have hB0 : 0 ≤ B := le_trans (hd start hs start hs).1 (hd start hs start hs).2
  obtain ⟨q, hpath, _, hcost, _⟩ := held_karp_correct n dist start B hs hnn hB hB0 hbound
  refine ⟨?_, (nearest_neighbor_cost_cycle n dist).2⟩
  rw [hpath]
  exact hcost

/-- Witness for C3 on `mat2` with start 0. -/
theorem C3_cost_matches_path_witness :
    (held_karp 2 mat2 0).cost = cycleCost mat2 (held_karp 2 mat2 0).path ∧
    (nearest_neighbor 2 mat2).cost = cycleCost mat2 (nearest_neighbor 2 mat2).path :=
  C3_cost_matches_path 2 mat2 0 5 (by decide) (by decide) (by decide)

/-- C4 as stated is false: on the valid matrix `mat999` the stuck
nearest-neighbor solver reports cost 0 while the exact Held-Karp tour costs
2000, so the Held-Karp cost is not below the nearest-neighbor cost. -/
theorem C4_counterexample :
    (∀ i, i < 2 → ∀ j, j < 2 → 0 ≤ mat999 i j) ∧
      (∀ i, i < 2 → mat999 i i = 0) ∧
      (held_karp 2 mat999 0).cost = 2000 ∧
      (nearest_neighbor 2 mat999).cost = 0 ∧
      ¬ ((held_karp 2 mat999 0).cost ≤ (nearest_neighbor 2 mat999).cost) := by decide

/-- C4 amended: for every bounded valid matrix whose off-diagonal entries
are all below the sentinel 999, and every start node, the Held-Karp cost is
at most the nearest-neighbor cost. -/
theorem C4_held_karp_le_nearest_neighbor (n : ℕ) (dist : ℕ → ℕ → ℤ) (start : ℕ) (B : ℤ)
    (hs : start < n)
    (hd : ∀ i, i < n → ∀ j, j < n → 0 ≤ dist i j ∧ dist i j ≤ B)
    (hbound : (n : ℤ) * B < INTMAX)
    (hsmall : ∀ i, i < n → ∀ j, j < n → i ≠ j → dist i j < 999) :
    (held_karp n dist start).cost ≤ (nearest_neighbor n dist).cost := by
  have hnn : ∀ i j, i < n → j < n → 0 ≤ dist i j := fun i j hi hj => (hd i hi j hj).1
  have hB : ∀ i j, i < n → j < n → dist i j ≤ B := fun i j hi hj => (hd i hi j hj).2
  have hB0 : 0 ≤ B := le_trans (hd start hs start hs).1 (hd start hs start hs).2
  obtain ⟨hperm, hhead⟩ := nearest_neighbor_perm n dist (by omega)
    (fun i j hi hj hij => hsmall i hi j hj hij)
  have hmem0 : (nearest_neighbor n dist).path ∈ hamCycles n 0 := by
    rw [hamCycles, List.mem_filter]
    exact ⟨List.mem_permutations.mpr hperm, by rw [hhead]; simp⟩
  obtain ⟨q1, hq1, hcc⟩ := hamCycles_recut n start dist hs hmem0
  obtain ⟨_, hmin⟩ := held_karp_min n dist start B hs hnn hB hB0 hbound
  have h1 := hmin (cycleCost dist q1) (List.mem_map.mpr ⟨q1, hq1, rfl⟩)
  rw [hcc] at h1
  rw [(nearest_neighbor_cost_cycle n dist).2]
  exact h1

/-- Witness for the amended C4 on `mat2` with start 1. -/
theorem C4_held_karp_le_nearest_neighbor_witness :
    (held_karp 2 mat2 1).cost ≤ (nearest_neighbor 2 mat2).cost :=
  C4_held_karp_le_nearest_neighbor 2 mat2 1 5 (by decide) (by decide) (by decide)
    (by decide)

/-- C5 as stated is false: `nearest_neighbor` takes no start-node argument
(nearestneighbor.c line 38 receives only the matrix and line 48 fixes
`cur = 0`), so for the valid start s = 1 of this 2-node instance the
returned path begins at 0, not at 1. -/
theorem C5_counterexample :
    (1 : ℕ) < 2 ∧ (nearest_neighbor 2 mat2).path.head? = some 0 ∧
      (nearest_neighbor 2 mat2).path.head? ≠ some 1 := by decide

/-- C5 amended: the nearest-neighbor solver receives only the cost matrix
and always starts at node 0: its path begins at 0 and its cost closes the
cycle back to the path head 0. -/
theorem C5_nearest_neighbor_starts_at_zero (n : ℕ) (dist : ℕ → ℕ → ℤ) :
    (nearest_neighbor n dist).path.head? = some 0 ∧
      (nearest_neighbor n dist).cost = cycleCost dist (nearest_neighbor n dist).path :=
  nearest_neighbor_cost_cycle n dist

/-- C6 as stated fails on `mat999`: at the first step of the solver the
appended node is 0, the current (already visited) node, although the
unvisited node 1 exists; the appended node is therefore not an unvisited
node of minimum cost. -/
theorem C6_counterexample :
    find_nearest_neighbor 2 0 mat999 (fun j => decide (j = 0)) = 0 ∧
      (fun j => decide (j = 0) : ℕ → Bool) 0 = true ∧
      (fun j => decide (j = 0) : ℕ → Bool) 1 = false ∧
      (nearest_neighbor 2 mat999).path = [0, 0] := by decide

/-- C6 amended: provided some unvisited node other than the current one
costs strictly less than 999 from the current node, `find_nearest_neighbor`
returns an unvisited node distinct from the current one achieving the
minimum cost among all unvisited nodes, and every smaller index that is
unvisited costs strictly more (lowest index wins, strict less-than scan);
this is the node the solver loop appends. -/
theorem C6_greedy_argmin (n cur : ℕ) (table : ℕ → ℕ → ℤ) (visited : ℕ → Bool)
    (hex : ∃ i, i < n ∧ i ≠ cur ∧ visited i = false ∧ table cur i < 999) :
    find_nearest_neighbor n cur table visited < n ∧
      find_nearest_neighbor n cur table visited ≠ cur ∧
      visited (find_nearest_neighbor n cur table visited) = false ∧
      (∀ j, j < n → j ≠ cur → visited j = false →
        table cur (find_nearest_neighbor n cur table visited) ≤ table cur j) ∧
      (∀ j, j < find_nearest_neighbor n cur table visited → j ≠ cur →
        visited j = false →
        table cur (find_nearest_neighbor n cur table visited) < table cur j) :=
  find_nearest_neighbor_spec n cur table visited hex

/-- Witness for the amended C6 on `mat3` from node 0 with only 0 visited. -/
theorem C6_greedy_argmin_witness :
    find_nearest_neighbor 3 0 mat3 (fun j => decide (j = 0)) < 3 ∧
      find_nearest_neighbor 3 0 mat3 (fun j => decide (j = 0)) ≠ 0 ∧
      (fun j => decide (j = 0) : ℕ → Bool)
        (find_nearest_neighbor 3 0 mat3 (fun j => decide (j = 0))) = false ∧
      (∀ j, j < 3 → j ≠ 0 → (fun j => decide (j = 0) : ℕ → Bool) j = false →
        mat3 0 (find_nearest_neighbor 3 0 mat3 (fun j => decide (j = 0))) ≤ mat3 0 j) ∧
      (∀ j, j < find_nearest_neighbor 3 0 mat3 (fun j => decide (j = 0)) → j ≠ 0 →
        (fun j => decide (j = 0) : ℕ → Bool) j = false →
        mat3 0 (find_nearest_neighbor 3 0 mat3 (fun j => decide (j = 0))) < mat3 0 j) :=
  C6_greedy_argmin 3 0 mat3 (fun j => decide (j = 0)) ⟨1, by decide⟩

/-- C7: the source performs no width check at all.  `int32shl` models the C
expression `1 << k` on the 32-bit `int` used at heldkarp.c line 45: at the
shipped SIZE = 15 the row count is 32768, while at SIZE = 31 the same
expression is negative (signed overflow), yet `held_karp` starts with this
allocation unconditionally — there is no rejection branch before it, and the
embedded `held_karp` is a total function with no error result. -/
theorem C7_no_mask_width_check :
    int32shl 15 = 32768 ∧ int32shl 31 = -2147483648 ∧ int32shl 31 < 0 := by decide

/-- C8: for bounded valid matrices the Held-Karp cost is the same for every
pair of start nodes: the optimal cycle cost does not depend on where the
cycle is cut open. -/
theorem C8_start_invariant (n : ℕ) (dist : ℕ → ℕ → ℤ) (s1 s2 : ℕ) (B : ℤ)
    (hs1 : s1 < n) (hs2 : s2 < n)
    (hd : ∀ i, i < n → ∀ j, j < n → 0 ≤ dist i j ∧ dist i j ≤ B)
    (hbound : (n : ℤ) * B < INTMAX) :
    (held_karp n dist s1).cost = (held_karp n dist s2).cost := by
  have hnn : ∀ i j, i < n → j < n → 0 ≤ dist i j := fun i j hi hj => (hd i hi j hj).1
  have hB : ∀ i j, i < n → j < n → dist i j ≤ B := fun i j hi hj => (hd i hi j hj).2
  have hB0 : 0 ≤ B := le_trans (hd s1 hs1 s1 hs1).1 (hd s1 hs1 s1 hs1).2
  exact held_karp_start_invariant n dist s1 s2 B hs1 hs2 hnn hB hB0 hbound

/-- Witness for C8 on `mat3` with starts 0 and 2. -/
theorem C8_start_invariant_witness :
    (held_karp 3 mat3 0).cost = (held_karp 3 mat3 2).cost :=
  C8_start_invariant 3 mat3 0 2 4 (by decide) (by decide) (by decide) (by decide)

/-- C9: the `999` sentinel of `find_nearest_neighbor`.  (a) When every
off-diagonal entry is strictly below 999, the nearest-neighbor path is a
permutation of {0,...,n-1} starting at node 0.  (b) When every unvisited
node costs at least 999 from the current node, `find_nearest_neighbor`
returns the current node itself; consequently, on a matrix whose
off-diagonal entries all reach 999, the returned path repeats node 0 and is
not a permutation. -/
theorem C9_sentinel (n : ℕ) (table : ℕ → ℕ → ℤ) :
    ((1 ≤ n) → (∀ i, i < n → ∀ j, j < n → i ≠ j → table i j < 999) →
      (nearest_neighbor n table).path.Perm (List.range n) ∧
        (nearest_neighbor n table).path.head? = some 0) ∧
    (∀ cur (visited : ℕ → Bool),
      (∀ i, i < n → i ≠ cur → visited i = false → 999 ≤ table cur i) →
      find_nearest_neighbor n cur table visited = cur) ∧
    ((2 ≤ n) → (∀ i, i < n → ∀ j, j < n → i ≠ j → 999 ≤ table i j) →
      ¬ (nearest_neighbor n table).path.Nodup ∧
        ¬ (nearest_neighbor n table).path.Perm (List.range n)) := by
  refine ⟨?_, ?_, ?_⟩
  · intro hn hsmall
    exact nearest_neighbor_perm n table hn (fun i j hi hj hij => hsmall i hi j hj hij)
  · intro cur visited hall
    exact find_nearest_neighbor_stuck n cur table visited hall
  · intro hn2 hbig
    have hnd := nearest_neighbor_stuck n table hn2
      (fun i j hi hj hij => hbig i hi j hj hij)
    refine ⟨hnd, ?_⟩
    intro hperm
    exact hnd (hperm.symm.nodup (List.nodup_range n))

/-- Witness for C9: part (a) on `mat2`, parts (b) on `mat999`. -/
theorem C9_sentinel_witness :
    ((nearest_neighbor 2 mat2).path.Perm (List.range 2) ∧
      (nearest_neighbor 2 mat2).path.head? = some 0) ∧
    find_nearest_neighbor 2 0 mat999 (fun j => decide (j = 0)) = 0 ∧
    (¬ (nearest_neighbor 2 mat999).path.Nodup ∧
      ¬ (nearest_neighbor 2 mat999).path.Perm (List.range 2)) :=
  ⟨(C9_sentinel 2 mat2).1 (by decide) (by decide),
    (C9_sentinel 2 mat999).2.1 0 (fun j => decide (j = 0)) (by decide),
    (C9_sentinel 2 mat999).2.2 (by decide) (by decide)⟩

/-- C10: overflow safety of held_karp under "max entry times n at most
INT_MAX".  (i) Every non-sentinel dp value is the cost of a simple path of
at most n nodes, i.e. a sum of at most n-1 true edge costs.  (ii) The
guarded DP transition sum never exceeds INT_MAX.  (iii) In the unguarded
closing loop, an INT_MAX operand occurs only at last = start, where it is
added to the zero diagonal entry.  (iv) No closing-loop sum exceeds
INT_MAX. -/
theorem C10_no_overflow (n : ℕ) (dist : ℕ → ℕ → ℤ) (start : ℕ) (B : ℤ)
    (hs : start < n)
    (hd : ∀ i, i < n → ∀ j, j < n → 0 ≤ dist i j ∧ dist i j ≤ B)
    (hdiag : ∀ i, i < n → dist i i = 0)
    (hbound : (n : ℤ) * B ≤ INTMAX) :
    (∀ S l, S < 2 ^ n → hkDP n dist start S l ≠ INTMAX →
      ∃ p, IsPathOver start S l p ∧ pathCost dist p = hkDP n dist start S l ∧
        p.length ≤ n) ∧
    (∀ S l i, S < 2 ^ n → l < n → i < n → Nat.testBit S l = true →
      hkDP n dist start (S ^^^ 2 ^ l) i ≠ INTMAX →
      hkDP n dist start (S ^^^ 2 ^ l) i + dist i l ≤ INTMAX) ∧
    (∀ l, l < n → hkDP n dist start (2 ^ n - 1) l = INTMAX →
      l = start ∧ dist l start = 0) ∧
    (∀ l, l < n → hkDP n dist start (2 ^ n - 1) l + dist l start ≤ INTMAX) := by
  have hnn : ∀ i j, i < n → j < n → 0 ≤ dist i j := fun i j hi hj => (hd i hi j hj).1
  have hB : ∀ i j, i < n → j < n → dist i j ≤ B := fun i j hi hj => (hd i hi j hj).2
  have hB0 : 0 ≤ B := le_trans (hd start hs start hs).1 (hd start hs start hs).2
  have hfull : 2 ^ n - 1 < 2 ^ n := by
    have := Nat.one_le_two_pow (n := n)
    omega
  have hbnd : ∀ S l, S < 2 ^ n → hkDP n dist start S l ≠ INTMAX →
      hkDP n dist start S l ≤ ((n : ℤ) - 1) * B := by
    intro S l hSn hne
    obtain ⟨p, hp, hpc⟩ := hkDP_realizable n dist start S l hne
    have hmem : ∀ x ∈ p, x < n := fun x hx => coversExactly_mem_lt hSn hp.2.2 hx
    have hlen : p.length ≤ n := coversExactly_length_le hSn hp.2.2
    have hne2 : p ≠ [] := by
      intro hc
      rw [hc] at hp
      exact absurd hp.1 (by simp)
    have hpos : 0 < p.length := List.length_pos.mpr hne2
    have hcost : pathCost dist p ≤ ((p.length - 1 : ℕ) : ℤ) * B :=
      pathCost_le dist n B hB p hmem
    have hcast : ((p.length - 1 : ℕ) : ℤ) ≤ (n : ℤ) - 1 := by
      have h1 : (p.length - 1 : ℕ) + 1 ≤ n := by omega
      have h2 : ((p.length - 1 : ℕ) : ℤ) + 1 ≤ (n : ℤ) := by exact_mod_cast h1
      linarith
    have := mul_le_mul_of_nonneg_right hcast hB0
    rw [← hpc]
    linarith
  refine ⟨?_, ?_, ?_, ?_⟩
  · intro S l hSn hne
    obtain ⟨p, hp, hpc⟩ := hkDP_realizable n dist start S l hne
    exact ⟨p, hp, hpc, coversExactly_length_le hSn hp.2.2⟩
  · intro S l i hSn hl hi hbl hne
    have hS'n : S ^^^ 2 ^ l < 2 ^ n := lt_trans (xor_pow_lt hbl) hSn
    have h1 := hbnd _ i hS'n hne
    have h2 : dist i l ≤ B := hB i l hi hl
    have h3 : ((n : ℤ) - 1) * B + B = (n : ℤ) * B := by ring
    linarith
  · intro l hl hInt
    by_cases hls : l = start
    · exact ⟨hls, by rw [hls]; exact hdiag start hs⟩
    · have hn2 : 2 ≤ n := by omega
      exact absurd hInt (hkDP_full_finite n dist start l B hs hl hls hB hB0 hbound)
  · intro l hl
    by_cases hInt : hkDP n dist start (2 ^ n - 1) l = INTMAX
    · by_cases hls : l = start
      · rw [hInt, hls, hdiag start hs, add_zero]
      · have hn2 : 2 ≤ n := by omega
        exact absurd hInt (hkDP_full_finite n dist start l B hs hl hls hB hB0 hbound)
    · have h1 := hbnd _ l hfull hInt
      have h2 : dist l start ≤ B := hB l start hl hs
      have h3 : ((n : ℤ) - 1) * B + B = (n : ℤ) * B := by ring
      linarith

/-- Witness for C10 on `mat2` with start 0. -/
theorem C10_no_overflow_witness :
    (∀ S l, S < 2 ^ 2 → hkDP 2 mat2 0 S l ≠ INTMAX →
      ∃ p, IsPathOver 0 S l p ∧ pathCost mat2 p = hkDP 2 mat2 0 S l ∧
        p.length ≤ 2) ∧
    (∀ S l i, S < 2 ^ 2 → l < 2 → i < 2 → Nat.testBit S l = true →
      hkDP 2 mat2 0 (S ^^^ 2 ^ l) i ≠ INTMAX →
      hkDP 2 mat2 0 (S ^^^ 2 ^ l) i + mat2 i l ≤ INTMAX) ∧
    (∀ l, l < 2 → hkDP 2 mat2 0 (2 ^ 2 - 1) l = INTMAX →
      l = 0 ∧ mat2 l 0 = 0) ∧
    (∀ l, l < 2 → hkDP 2 mat2 0 (2 ^ 2 - 1) l + mat2 l 0 ≤ INTMAX) :=
  C10_no_overflow 2 mat2 0 5 (by decide) (by decide) (by decide) (by decide)

end TSP
